import Mathlib

/-!
Verification of the Frustris piece-lifecycle and pile-management engine
(`src/main.js`, the current variant of the file).

Shallow embedding conventions:
* JavaScript numbers are modelled as exact rationals (`ℚ`); timestamps
  (`Date.now()`) as integers (`ℤ`).
* Matter.js is the external physics collaborator.  Its exact contact query
  `Matter.Query.collides` is modelled as an oracle parameter
  `cq : Body → Body → Bool`; body positions, velocities and sleep flags are
  fields of our `Body` record, updated only where the game code updates them
  (the physics step itself is outside the modelled code).
* Matter's `body.speed` is the magnitude of the velocity and
  `Vector.magnitude` is a Euclidean norm; every comparison
  `magnitude < c` (resp. `>`) in the source is modelled as the equivalent
  comparison of squares `magnitudeSq < c²`, which avoids square roots while
  deciding exactly the same test.
* `setTimeout(() => this.spawnPiece(), 300)` is modelled by recording a
  pending-spawn deadline in the state (`pendingSpawnAt`); firing the timer is
  the separate operation `firePendingSpawn`.
* The random archetype choice, Matter's fresh body-id allocation and the part
  placement done by the engine are inputs, packaged in `SpawnArgs`.
-/

namespace Frustris

/-- 2-d vector (Matter.js `Vector`), with exact rational coordinates. -/
structure V2 where
  x : ℚ
  y : ℚ
deriving DecidableEq, Repr

/-- Squared Euclidean distance; `Vector.magnitude (Vector.sub a b) < c` in the
source is modelled as `distSq a b < c²`. -/
def distSq (a b : V2) : ℚ :=
  (a.x - b.x) * (a.x - b.x) + (a.y - b.y) * (a.y - b.y)

/-- A top-level Matter body as the game code reads and writes it.
`subParts` holds the world positions of the constituent block sub-bodies of a
compound piece (`body.parts.slice(1)` in Matter, where `parts[0]` is the body
itself); it is `[]` for simple bodies such as the walls. -/
structure Body where
  id : ℕ
  label : String
  pieceType : String
  parentIsSelf : Bool
  position : V2
  velocity : V2
  angle : ℚ
  subParts : List V2
  isSleeping : Bool
  spawnTime : ℤ
  lastPos : V2
  lastMoveTime : ℤ
deriving DecidableEq, Repr

/-- `body.speed` squared (Matter defines `speed` as `|velocity|`). -/
def speedSq (b : Body) : ℚ :=
  b.velocity.x * b.velocity.x + b.velocity.y * b.velocity.y

/-- The whole mutable game state of the `Frustris` class (DOM-only fields such
as the pile meter are omitted; `finalScore` records the snapshot written to the
game-over screen, `pendingSpawnAt` the deadline of the scheduled spawn timer,
`runnerEnabled` the Matter runner's `enabled` flag). -/
structure GameState where
  bodies : List Body
  activeId : Option ℕ
  score : ℕ
  isGameOver : Bool
  isPaused : Bool
  isTouchingPile : Bool
  wasMoving : Bool
  lastActionTime : ℤ
  pendingSpawnAt : Option ℤ
  finalScore : Option ℕ
  runnerEnabled : Bool
deriving DecidableEq, Repr

/-- Inputs the environment supplies to a spawn: the randomly chosen archetype,
the fresh Matter body id, and the world positions of the block sub-bodies after
the engine has placed the compound at the spawn point. -/
structure SpawnArgs where
  pieceType : String
  pid : ℕ
  subParts : List V2
deriving DecidableEq, Repr

/-- Look a body up by id (the JS object reference `this.activePiece` is
modelled by the id `activeId`). -/
def findBody (bodies : List Body) (i : ℕ) : Option Body :=
  bodies.find? (fun b => b.id == i)

/-- Write back a mutation of the body with the given id. -/
def updateBody (bodies : List Body) (i : ℕ) (f : Body → Body) : List Body :=
  bodies.map (fun b => if b.id = i then f b else b)

/-- Ids of a list of bodies, as a finite set. -/
def idsOf (l : List Body) : Finset ℕ :=
  (l.map (fun b => b.id)).toFinset

/-- The minimum cluster size that clears.  The source hardcodes the literal 3
at both use sites (`main.js:461` `settled.length < 3` and `main.js:518`
`group.length >= 3`); it has no level or progression state, so this threshold
does not depend on any level. -/
def minClusterToClear : ℕ := 3

/-- The clear threshold as a function of a (hypothetical) level: the source
has no level variable, so the value is the constant `minClusterToClear`. -/
def minClusterToClearAt (_level : ℕ) : ℕ := minClusterToClear

/-- `triggerGameOver` (`main.js:399-405`): idempotent; shows the final score
snapshot and nulls the active-piece reference. -/
def triggerGameOver (s : GameState) : GameState :=
  if s.isGameOver then s
  else { s with isGameOver := true, finalScore := some s.score, activeId := none }

/-- The spawn-blocked scan of `spawnPiece` (`main.js:89-103`): a settled body
above `thresholdY = 160`, with `speed < 0.1`, within 100 px of the horizontal
centre `width / 2 = 200`. -/
def spawnBlocked (bodies : List Body) : Bool :=
  bodies.any (fun b =>
    b.label == "settled" && decide (b.position.y < 160) &&
      decide (speedSq b < 1 / 100) && decide (|b.position.x - 200| < 100))

/-- The active compound built in `spawnPiece` (`main.js:116-148`): labelled
`active`, positioned at the fixed top-centre spawn point `(width/2, 50)`,
with spawn-time tracking fields initialised to now. -/
def mkActivePiece (now : ℤ) (sp : SpawnArgs) : Body :=
  { id := sp.pid
    label := "active"
    pieceType := sp.pieceType
    parentIsSelf := true
    position := ⟨200, 50⟩
    velocity := ⟨0, 0⟩
    angle := 0
    subParts := sp.subParts
    isSleeping := false
    spawnTime := now
    lastPos := ⟨200, 50⟩
    lastMoveTime := now }

/-- `spawnPiece` (`main.js:85-151`). -/
def spawnPiece (now : ℤ) (sp : SpawnArgs) (s : GameState) : GameState :=
  if s.isGameOver || s.activeId.isSome then s
  else if spawnBlocked s.bodies then triggerGameOver s
  else
    { s with
      bodies := s.bodies ++ [mkActivePiece now sp]
      activeId := some sp.pid
      isTouchingPile := false
      lastActionTime := now }

/-- The deferred `setTimeout(() => this.spawnPiece(), 300)` firing. -/
def firePendingSpawn (now : ℤ) (sp : SpawnArgs) (s : GameState) : GameState :=
  match s.pendingSpawnAt with
  | none => s
  | some _ => spawnPiece now sp { s with pendingSpawnAt := none }

/-- `togglePause` (`main.js:258-267`): unconditionally flips the paused flag
and enables/disables the physics runner accordingly. -/
def togglePause (s : GameState) : GameState :=
  let s1 := { s with isPaused := !s.isPaused }
  if s1.isPaused then { s1 with runnerEnabled := false }
  else { s1 with runnerEnabled := true }

/-- The Escape branch of the keydown listener (`main.js:160-162`): toggles
pause only when the game is not over. -/
def onKeydownEscape (s : GameState) : GameState :=
  if !s.isGameOver then togglePause s else s

/-- The mobile pause button and the resume button call `togglePause` with no
guard (`main.js:172-175`, `main.js:248-255`). -/
def onMobilePause (s : GameState) : GameState :=
  togglePause s

/-- The velocity/rotation/clamping applied to the active body by
`handleInput` (`main.js:272-305`). -/
def applyInputToBody (keys : List String) (touchingPile : Bool) (a : Body) : Body :=
  let vx : ℚ :=
    if keys.contains "ArrowRight" then 6
    else if keys.contains "ArrowLeft" then -6 else 0
  let a := { a with velocity := ⟨vx, a.velocity.y⟩ }
  let a := if keys.contains "KeyA" then { a with angle := a.angle - 2 / 25 } else a
  let a := if keys.contains "KeyD" then { a with angle := a.angle + 2 / 25 } else a
  let a := if keys.contains "ArrowDown" then { a with velocity := ⟨a.velocity.x, 8⟩ } else a
  let a :=
    if keys.contains "Space" then
      if !touchingPile then { a with velocity := ⟨a.velocity.x, 15⟩ }
      else { a with velocity := ⟨a.velocity.x, 1 / 100⟩ }
    else a
  let a := if a.position.x < 15 then { a with position := ⟨15, a.position.y⟩ } else a
  if a.position.x > 385 then { a with position := ⟨385, a.position.y⟩ } else a

/-- `handleInput` (`main.js:269-306`); `keys` is the set of currently pressed
key codes. -/
def handleInput (keys : List String) (s : GameState) : GameState :=
  match s.activeId with
  | none => s
  | some i =>
    if s.isGameOver || s.isPaused then s
    else
      match findBody s.bodies i with
      | none => s
      | some a =>
        { s with
          bodies := updateBody s.bodies i
            (fun _ => applyInputToBody keys s.isTouchingPile a) }

/-- The block sub-bodies used by the fallback proximity test
(`main.js:494-495`): `parts.length > 1 ? parts.slice(1) : [body]`. -/
def partsOf (b : Body) : List V2 :=
  match b.subParts with
  | [] => [b.position]
  | ps => ps

/-- The forgiving part-to-part distance check (`main.js:492-509`): some pair
of constituent blocks closer than `BLOCK_SIZE * 1.5 = 45` px
(`45² = 2025`; `BLOCK_SIZE = 30` per the source's own comment
"Corner-to-corner is 42.4px... BLOCK_SIZE * 1.5 = 45px"). -/
def proximity (a b : Body) : Bool :=
  (partsOf a).any (fun pA => (partsOf b).any (fun pB => decide (distSq pA pB < 2025)))

/-- The adjacency test of the clustering loop (`main.js:485-509`): the exact
contact query `Matter.Query.collides` (oracle `cq`) or, failing that, the
proximity fallback.  (The source skips the fallback when the contact query
already hit; `||` computes the same truth value.) -/
def touching (cq : Body → Body → Bool) (a b : Body) : Bool :=
  cq a b || proximity a b

/-- The settled, top-level bodies gathered by `checkClears`
(`main.js:451-459`): `label === 'settled' && b.parent === b`. -/
def settledTop (bodies : List Body) : List Body :=
  bodies.filter (fun b => b.label == "settled" && b.parentIsSelf)

/-- The distinct `pieceType` keys of the `byType` grouping object
(`main.js:448-458`), in first-occurrence order (JS object-key insertion
order). -/
def typeKeys (settled : List Body) : List String :=
  settled.foldl (fun ks b => if b.pieceType ∈ ks then ks else ks ++ [b.pieceType]) []

/-- The flood-fill loop of `checkClears` (`main.js:477-516`): pop a body from
the stack into the group, push every not-yet-visited same-type body touching
it, marking it visited.  `fuel` is a structural-recursion bound only: one unit
is spent per pop, and `pieces.length + 1` units always suffice (each push
marks a fresh id visited, so pops ≤ 1 + pieces.length); the `0` case is
unreachable under that bound.  The source pops the most recently pushed
element; we pop the head — the stack discipline only permutes the order in
which the same group is collected, which the correctness theorems below show
is the connected component, a set. -/
def dfsLoop (adj : Body → Body → Bool) (pieces : List Body) :
    ℕ → List Body → Finset ℕ → List Body → List Body × Finset ℕ
  | 0, _, visited, group => (group, visited)
  | _ + 1, [], visited, group => (group, visited)
  | fuel + 1, current :: stack, visited, group =>
    let news := pieces.filter (fun o => o.id ∉ visited && adj current o)
    dfsLoop adj pieces fuel (news ++ stack) (visited ∪ idsOf news) (group ++ [current])

/-- The per-archetype outer loop of `checkClears` (`main.js:469-521`): start a
flood fill from every not-yet-visited piece of the partition; groups of size
`≥ 3` (`minClusterToClear`) are added to the removal set.  The accumulator is
`(toRemove, visited)`. -/
def scanPieces (adj : Body → Body → Bool) (pieces : List Body) :
    List Body → Finset ℕ × Finset ℕ → Finset ℕ × Finset ℕ
  | [], acc => acc
  | p :: rest, (toRem, visited) =>
    if p.id ∈ visited then scanPieces adj pieces rest (toRem, visited)
    else
      let r := dfsLoop adj pieces (pieces.length + 1) [p] (insert p.id visited) []
      scanPieces adj pieces rest
        (if minClusterToClear ≤ r.1.length then toRem ∪ idsOf r.1 else toRem, r.2)

/-- The whole marking pass of `checkClears` (`main.js:463-522`): iterate the
archetype partitions (`for (const type in byType)`), threading the shared
`visited` set, and collect the ids marked for removal. -/
def scanAll (cq : Body → Body → Bool) (settled : List Body) : Finset ℕ :=
  ((typeKeys settled).foldl
    (fun acc t =>
      scanPieces (touching cq) (settled.filter (fun b => b.pieceType == t))
        (settled.filter (fun b => b.pieceType == t)) acc)
    (∅, ∅)).1

/-- `checkClears` (`main.js:446-539`): gather settled top-level bodies, bail
out below 3 of them, mark whole same-type groups of size ≥ 3 for removal;
on a non-empty removal set add 100 points per removed piece, remove exactly
the marked set, wake every remaining body, and record the action timestamp. -/
def checkClears (cq : Body → Body → Bool) (now : ℤ) (s : GameState) : GameState :=
  let settled := settledTop s.bodies
  if settled.length < minClusterToClear then s
  else
    let toRemove := scanAll cq settled
    if 0 < toRemove.card then
      { s with
        score := s.score + toRemove.card * 100
        bodies := (s.bodies.filter (fun b => b.id ∉ toRemove)).map
          (fun b => { b with isSleeping := false })
        lastActionTime := now }
    else s

/-- The tracking refresh at the top of the settle check (`main.js:331-336`):
if the piece moved more than 2 px since `lastPos` (`distSq > 4`), refresh
`lastPos`/`lastMoveTime`. -/
def refreshTracking (now : ℤ) (a : Body) : Body :=
  if distSq a.position a.lastPos > 4 then { a with lastPos := a.position, lastMoveTime := now }
  else a

/-- The obstacle list of the settle check (`main.js:316-321`): bodies labelled
`settled` or `ground`. -/
def obstaclesOf (bodies : List Body) : List Body :=
  bodies.filter (fun b => b.label == "settled" || b.label == "ground")

/-- The settle disjunction of `main.js:342-345`, evaluated after the tracking
refresh: `(speed < 1.2 && isTouching) || atBottom || isStuck`, with
`isStuck = timeStagnant > 1500 && pos.y > 200` and
`atBottom = pos.y > height - 100 = 600`. -/
def settleCondition (cq : Body → Body → Bool) (now : ℤ) (bodies : List Body) (a : Body) : Bool :=
  let isTouching := (obstaclesOf bodies).any (fun o => cq a o)
  let a1 := refreshTracking now a
  (decide (speedSq a1 < 36 / 25) && isTouching) || decide (a1.position.y > 600) ||
    (decide (now - a1.lastMoveTime > 1500) && decide (a1.position.y > 200))

/-- Part 1 of `checkSettle` (`main.js:313-358`): derive `isTouchingPile`,
refresh the stagnation tracking, and, when the settle condition holds, relabel
the piece `settled`, clear the active reference, add the 10-point placement
score, record the action timestamp, run `checkClears`, and schedule the next
spawn 300 ms out. -/
def settlePhase (cq : Body → Body → Bool) (now : ℤ) (s : GameState) : GameState :=
  match s.activeId with
  | none => s
  | some i =>
    match findBody s.bodies i with
    | none => s
    | some a =>
      let isTouching := (obstaclesOf s.bodies).any (fun o => cq a o)
      let a1 := refreshTracking now a
      let s1 := { s with isTouchingPile := isTouching
                         bodies := updateBody s.bodies i (fun _ => a1) }
      if settleCondition cq now s.bodies a then
        checkClears cq now
          { s1 with
            bodies := updateBody s1.bodies i (fun b => { b with label := "settled" })
            activeId := none
            score := s1.score + 10
            lastActionTime := now
            pendingSpawnAt := some (now + 300) }
      else s1

/-- The number of settled bodies still moving (`main.js:360-371`): speed above
the still threshold `1.5` (`speedSq > 9/4`). -/
def movingSettledCount (bodies : List Body) : ℕ :=
  (bodies.filter (fun b => b.label == "settled" && decide (speedSq b > 9 / 4))).length

/-- Parts 2–4 of `checkSettle` (`main.js:360-392`): scan the pile, re-trigger
`checkClears` once on the moving→still edge, update `wasMoving`, and
force-spawn when idle for more than 800 ms with no active piece (the pile
meter update is DOM-only and omitted).  The boolean result records whether the
edge branch fired. -/
def pilePhase (cq : Body → Body → Bool) (now : ℤ) (sp : SpawnArgs) (s : GameState) :
    GameState × Bool :=
  let anyMoving := decide (0 < movingSettledCount s.bodies)
  let fired := s.wasMoving && !anyMoving
  let s1 := if fired then { checkClears cq now s with lastActionTime := now } else s
  let s2 := { s1 with wasMoving := anyMoving }
  let s3 :=
    if s2.activeId.isNone && !anyMoving && decide (now - s2.lastActionTime > 800) then
      spawnPiece now sp s2
    else s2
  (s3, fired)

/-- `checkSettle` (`main.js:308-393`), with the edge-fired observation. -/
def checkSettleEv (cq : Body → Body → Bool) (now : ℤ) (sp : SpawnArgs) (s : GameState) :
    GameState × Bool :=
  if s.isPaused || s.isGameOver then (s, false)
  else pilePhase cq now sp (settlePhase cq now s)

/-- `checkSettle` as a state transformer. -/
def checkSettle (cq : Body → Body → Bool) (now : ℤ) (sp : SpawnArgs) (s : GameState) :
    GameState :=
  (checkSettleEv cq now sp s).1

/-- The lateral-move/rotation a touch drag applies to the active body
(`main.js:213-230`). -/
def applyTouchToBody (dx dy : ℚ) (a : Body) : Body :=
  let a :=
    if |dx| > 1 then
      { a with position := ⟨max 20 (min 380 (a.position.x + dx)), a.position.y⟩ }
    else a
  if |dy| > 1 then { a with angle := a.angle + dy * (1 / 20) } else a

/-- The touch-drag handler (`main.js:198-234`): moves/rotates the active piece
when not paused; `dx`/`dy` are the drag deltas. -/
def onTouchMove (dx dy : ℚ) (s : GameState) : GameState :=
  match s.activeId with
  | none => s
  | some i =>
    if s.isPaused then s
    else
      match findBody s.bodies i with
      | none => s
      | some a =>
        { s with bodies := updateBody s.bodies i (fun _ => applyTouchToBody dx dy a) }

/-- `Y` refines `X` without downgrading labels: every body of `Y` either
shadows a body of `X` with the same id whose `settled` label it keeps, or
carries an id absent from `X`. -/
def Shadow (X Y : List Body) : Prop :=
  ∀ b' ∈ Y,
    (∃ b ∈ X, b.id = b'.id ∧ (b.label = "settled" → b'.label = "settled")) ∨
      ∀ b ∈ X, b.id ≠ b'.id

/-- One externally triggered operation of the game.  `triggerGameOver` and
`checkClears` are reached through these entry points exactly as in the source;
`checkClears` is also listed on its own since the claims quantify over its
invocations.  The freshness hypotheses on the spawning steps model Matter's
guarantee that `Body.create` allocates an id not currently in the world. -/
inductive Step (cq : Body → Body → Bool) : GameState → GameState → Prop
  | spawn (now : ℤ) (sp : SpawnArgs) (s : GameState)
      (hfresh : sp.pid ∉ s.bodies.map (fun b => b.id)) :
      Step cq s (spawnPiece now sp s)
  | tick (now : ℤ) (sp : SpawnArgs) (s : GameState)
      (hfresh : sp.pid ∉ s.bodies.map (fun b => b.id)) :
      Step cq s (checkSettle cq now sp s)
  | clears (now : ℤ) (s : GameState) : Step cq s (checkClears cq now s)
  | input (keys : List String) (s : GameState) : Step cq s (handleInput keys s)
  | pauseKey (s : GameState) : Step cq s (onKeydownEscape s)
  | pauseBtn (s : GameState) : Step cq s (onMobilePause s)
  | touch (dx dy : ℚ) (s : GameState) : Step cq s (onTouchMove dx dy s)
  | deferred (now : ℤ) (sp : SpawnArgs) (s : GameState)
      (hfresh : sp.pid ∉ s.bodies.map (fun b => b.id)) :
      Step cq s (firePendingSpawn now sp s)

/-- The world never holds two bodies with the same Matter id. -/
def nodupIds (s : GameState) : Prop :=
  (s.bodies.map (fun b => b.id)).Nodup

/-- The active-reference/label link: while a piece is referenced, every body
labelled `active` carries its id (and the game is not over); with no
reference, no body is labelled `active`. -/
def goodActive (s : GameState) : Prop :=
  match s.activeId with
  | some i => s.isGameOver = false ∧ ∀ b ∈ s.bodies, b.label = "active" → b.id = i
  | none => ∀ b ∈ s.bodies, b.label ≠ "active"

instance (s : GameState) : Decidable (nodupIds s) := by
  unfold nodupIds
  infer_instance

instance (s : GameState) : Decidable (goodActive s) := by
  unfold goodActive
  cases s.activeId <;> infer_instance

/-- The inductive state invariant used for the lifecycle claims. -/
def Inv (s : GameState) : Prop :=
  nodupIds s ∧ goodActive s

instance (s : GameState) : Decidable (Inv s) := by
  unfold Inv
  infer_instance

/-- How many bodies are in the Active state. -/
def countActive (s : GameState) : ℕ :=
  (s.bodies.filter (fun b => b.label == "active")).length

/-- Game over implies the active-piece reference is cleared. -/
def overNoActive (s : GameState) : Prop :=
  s.isGameOver = true → s.activeId = none

instance (s : GameState) : Decidable (overNoActive s) := by
  unfold overNoActive
  infer_instance

/-- A contact oracle that always misses (the proximity fallback still
clusters); used for concrete scenarios. -/
def noCq : Body → Body → Bool := fun _ _ => false

/-- A single-block settled body at a given position, for concrete scenarios. -/
def sBody (i : ℕ) (x y : ℚ) (t : String) : Body :=
  { id := i
    label := "settled"
    pieceType := t
    parentIsSelf := true
    position := ⟨x, y⟩
    velocity := ⟨0, 0⟩
    angle := 0
    subParts := []
    isSleeping := false
    spawnTime := 0
    lastPos := ⟨x, y⟩
    lastMoveTime := 0 }

/-- A quiescent session around a given pile. -/
def mkState (bs : List Body) : GameState :=
  { bodies := bs
    activeId := none
    score := 0
    isGameOver := false
    isPaused := false
    isTouchingPile := false
    wasMoving := false
    lastActionTime := 0
    pendingSpawnAt := none
    finalScore := none
    runnerEnabled := true }

/-- Three settled `I` pieces within proximity of their neighbours, and nothing
else in the world: a clear of this cluster is a perfect clear. -/
def perfectWorld : GameState :=
  mkState [sBody 1 100 650 "I", sBody 2 130 650 "I", sBody 3 160 650 "I"]

/-- A game-over state (as left by a blocked spawn) used for the pause claims. -/
def overState : GameState :=
  { mkState [sBody 1 200 150 "I"] with isGameOver := true, finalScore := some 0 }

/-- The spawn-blocking condition as the specification states it: some settled
piece above the spawn-exclusion line, with near-zero speed, within the
horizontal window centred on the spawn column. -/
def SpawnBlockedSpec (s : GameState) : Prop :=
  ∃ b ∈ s.bodies,
    b.label = "settled" ∧ b.position.y < 160 ∧ speedSq b < 1 / 100 ∧
      |b.position.x - 200| < 100

/-- Reachability along the clustering adjacency inside one archetype
partition: a step goes to a member of the partition that the current body
touches. -/
def ReachIn (adj : Body → Body → Bool) (pieces : List Body) (a b : Body) : Prop :=
  Relation.ReflTransGen (fun x y => y ∈ pieces ∧ adj x y = true) a b

/-- `comp` is (the id set of) the maximal connected component of `b` inside
the partition `pieces`: it contains ids of partition members only, and a
member's id is in it exactly when the member is reachable from `b`. -/
def CompIdsSpec (adj : Body → Body → Bool) (pieces : List Body) (b : Body)
    (comp : Finset ℕ) : Prop :=
  (∀ i ∈ comp, ∃ q ∈ pieces, q.id = i) ∧
    ∀ q ∈ pieces, (q.id ∈ comp ↔ ReachIn adj pieces b q)

/-- The archetype partition a body belongs to. -/
def typeListOf (settled : List Body) (b : Body) : List Body :=
  settled.filter (fun q => q.pieceType == b.pieceType)

/-- The body lies in a maximal connected component of size at least
`minClusterToClear` within the partition `pieces`. -/
def BigIn (adj : Body → Body → Bool) (pieces : List Body) (b : Body) : Prop :=
  ∃ comp : Finset ℕ,
    CompIdsSpec adj pieces b comp ∧ minClusterToClear ≤ comp.card

/-- The body lies in a maximal same-archetype connected component of size at
least `minClusterToClear`. -/
def BigCluster (cq : Body → Body → Bool) (settled : List Body) (b : Body) : Prop :=
  BigIn (touching cq) (typeListOf settled b) b

/-- Invariant of the flood-fill loop, relative to the start body `p₀` and the
set `V₀` of ids visited before this fill started. -/
structure DfsState (adj : Body → Body → Bool) (pieces : List Body) (p₀ : Body)
    (V₀ : Finset ℕ) (stack : List Body) (visited : Finset ℕ) (group : List Body) :
    Prop where
  stack_mem : ∀ x ∈ stack, x ∈ pieces
  stack_reach : ∀ x ∈ stack, ReachIn adj pieces p₀ x
  group_mem : ∀ g ∈ group, g ∈ pieces
  group_reach : ∀ g ∈ group, ReachIn adj pieces p₀ g
  visited_sound : ∀ y ∈ pieces, y.id ∈ visited → y.id ∈ V₀ ∨ ReachIn adj pieces p₀ y
  visited_split : ∀ y ∈ pieces, y.id ∈ visited → y.id ∈ V₀ ∨ y ∈ group ∨ y ∈ stack
  marked_stack : ∀ x ∈ stack, x.id ∈ visited
  marked_group : ∀ x ∈ group, x.id ∈ visited
  frontier : ∀ g ∈ group, ∀ y ∈ pieces, adj g y = true → y.id ∈ visited
  nodup_group : (group.map (fun b => b.id)).Nodup
  nodup_stack : (stack.map (fun b => b.id)).Nodup
  disj : ∀ x ∈ group, ∀ y ∈ stack, x.id ≠ y.id
  base_sub : V₀ ⊆ visited
  fresh : ∀ i ∈ visited, i ∈ V₀ ∨ i ∈ idsOf pieces
  stack_new : ∀ x ∈ stack, x.id ∉ V₀
  group_new : ∀ g ∈ group, g.id ∉ V₀

/-- What holds of the flood fill's result `(group, visited)`. -/
structure DfsPost (adj : Body → Body → Bool) (pieces : List Body) (p₀ : Body)
    (V₀ : Finset ℕ) (r : List Body × Finset ℕ) : Prop where
  group_mem : ∀ g ∈ r.1, g ∈ pieces
  group_reach : ∀ g ∈ r.1, ReachIn adj pieces p₀ g
  complete : ∀ y ∈ pieces, y.id ∈ r.2 → y.id ∈ V₀ ∨ y ∈ r.1
  marked : ∀ x ∈ r.1, x.id ∈ r.2
  frontier : ∀ g ∈ r.1, ∀ y ∈ pieces, adj g y = true → y.id ∈ r.2
  nodup : (r.1.map (fun b => b.id)).Nodup
  base_sub : V₀ ⊆ r.2
  fresh : ∀ i ∈ r.2, i ∈ V₀ ∨ i ∈ idsOf pieces
  group_new : ∀ g ∈ r.1, g.id ∉ V₀

/-- A contact oracle that always reports overlap, for concrete scenarios. -/
def allCq : Body → Body → Bool := fun _ _ => true

/-- A concrete spawn input. -/
def demoSpawn : SpawnArgs :=
  { pieceType := "I", pid := 7, subParts := [] }

/-- A session with one freshly spawned active piece. -/
def activeDemo : GameState :=
  { mkState [mkActivePiece 0 demoSpawn] with activeId := some 7 }

/-- An empty pile whose `wasMoving` flag is set (the pile moved last tick). -/
def stillDemo : GameState :=
  { mkState [] with wasMoving := true }

/-! ## Theorems -/

/-- **C4, counterexample.**  The claim says leveling up strictly increases
`minClusterToClear`; in the source the clear threshold is the hardcoded
literal 3 (`main.js:461`, `main.js:518`) — there is no level state at all, so
the threshold at (hypothetical) level 2 is not strictly greater than at
level 1. -/
theorem C4_cex :
    minClusterToClearAt 1 = 3 ∧ minClusterToClearAt 2 = 3 ∧
      ¬ minClusterToClearAt 1 < minClusterToClearAt 2 := by
  decide

/-- **C4, amended.**  `minClusterToClear` is the constant 3: it equals 3 at
every level, is never below 3, and is non-decreasing (but not strictly
increasing) in the level; `checkClears` bails out when fewer than
`minClusterToClear` settled top-level pieces exist. -/
theorem C4_amended :
    minClusterToClear = 3 ∧
      (∀ l, minClusterToClearAt l = 3) ∧
      (∀ l, 3 ≤ minClusterToClearAt l) ∧
      (∀ l l', l ≤ l' → minClusterToClearAt l ≤ minClusterToClearAt l') ∧
      ∀ (cq : Body → Body → Bool) (now : ℤ) (s : GameState),
        (settledTop s.bodies).length < minClusterToClear → checkClears cq now s = s := by
  refine ⟨rfl, fun _ => rfl, fun l => le_refl 3, fun _ _ _ => le_rfl, ?_⟩
  intro cq now s h
  unfold checkClears
  simp [h]

/-- **C4, witness.** -/
theorem C4_witness :
    (1 : ℕ) ≤ 2 ∧ minClusterToClearAt 1 ≤ minClusterToClearAt 2 ∧
      (settledTop (mkState []).bodies).length < minClusterToClear ∧
      checkClears noCq 0 (mkState []) = mkState [] :=
  ⟨by decide, C4_amended.2.2.2.1 1 2 (by decide), by decide,
    C4_amended.2.2.2.2 noCq 0 (mkState []) (by decide)⟩

/-- **C8, counterexample.**  A pause-toggle request arriving through the
mobile pause button (or the resume button) while the game is over does flip
the paused flag: `togglePause` itself is unguarded (`main.js:258-267`), only
the Escape keydown path checks `isGameOver`. -/
theorem C8_cex :
    overState.isGameOver = true ∧ overState.isPaused = false ∧
      (onMobilePause overState).isPaused = true := by
  decide

/-- **C8, amended.**  The Escape-key pause-toggle request is ignored during
game over (paused flag and runner state unchanged); `togglePause` itself,
reachable unguarded from the mobile pause and resume buttons, always flips
the paused flag and sets the runner state accordingly; there is no
not-yet-started state (the game starts at construction). -/
theorem C8_amended :
    (∀ s : GameState, s.isGameOver = true → onKeydownEscape s = s) ∧
      (∀ s : GameState, (togglePause s).isPaused = !s.isPaused ∧
        (togglePause s).runnerEnabled = s.isPaused) ∧
      ∀ s : GameState, onMobilePause s = togglePause s := by
  refine ⟨?_, ?_, fun _ => rfl⟩
  · intro s h
    simp [onKeydownEscape, h]
  · intro s
    unfold togglePause
    cases h : s.isPaused <;> simp [h]

/-- **C8, witness.** -/
theorem C8_witness :
    overState.isGameOver = true ∧ onKeydownEscape overState = overState :=
  ⟨by decide, C8_amended.1 overState (by decide)⟩

/-- The boolean blocked-scan agrees with the specification's predicate. -/
theorem spawnBlocked_iff (bodies : List Body) :
    spawnBlocked bodies = true ↔
      ∃ b ∈ bodies,
        b.label = "settled" ∧ b.position.y < 160 ∧ speedSq b < 1 / 100 ∧
          |b.position.x - 200| < 100 := by
  unfold spawnBlocked
  simp [List.any_eq_true, Bool.and_eq_true, decide_eq_true_eq, and_assoc]

/-- **C3.** With no active piece and the game not over, `spawnPiece` signals
game over (and creates nothing) exactly when a settled piece sits above the
spawn-exclusion line with near-zero speed within the horizontal window around
the spawn column; otherwise it adds exactly one new active piece at the fixed
top-centre spawn point. -/
theorem C3_spawn_blocked_iff (now : ℤ) (sp : SpawnArgs) (s : GameState)
    (hover : s.isGameOver = false) (hact : s.activeId = none) :
    ((spawnPiece now sp s).isGameOver = true ↔ SpawnBlockedSpec s) ∧
      (SpawnBlockedSpec s →
        spawnPiece now sp s = triggerGameOver s ∧
          (spawnPiece now sp s).bodies = s.bodies ∧
          (spawnPiece now sp s).activeId = none ∧
          (spawnPiece now sp s).finalScore = some s.score) ∧
      (¬ SpawnBlockedSpec s →
        (spawnPiece now sp s).bodies = s.bodies ++ [mkActivePiece now sp] ∧
          (spawnPiece now sp s).activeId = some sp.pid ∧
          (spawnPiece now sp s).isGameOver = false) ∧
      (mkActivePiece now sp).label = "active" ∧
      (mkActivePiece now sp).position = ⟨200, 50⟩ := by
  have hspec : spawnBlocked s.bodies = true ↔ SpawnBlockedSpec s := spawnBlocked_iff s.bodies
  cases h : spawnBlocked s.bodies with
  | true =>
    have hs : SpawnBlockedSpec s := hspec.mp h
    refine ⟨?_, fun _ => ?_, fun hc => absurd hs hc, rfl, rfl⟩
    · simp [spawnPiece, hover, hact, h, triggerGameOver, hs]
    · simp [spawnPiece, hover, hact, h, triggerGameOver]
  | false =>
    have hs : ¬ SpawnBlockedSpec s := fun hc => by simp [hspec.mpr hc] at h
    refine ⟨?_, fun hc => absurd hc hs, fun _ => ?_, rfl, rfl⟩
    · simp [spawnPiece, hover, hact, h, hs]
    · simp [spawnPiece, hover, hact, h]

/-- **C3, witness.** -/
theorem C3_witness :
    (mkState []).isGameOver = false ∧ (mkState []).activeId = none ∧
      ((spawnPiece 0 demoSpawn (mkState [])).isGameOver = true ↔
        SpawnBlockedSpec (mkState [])) :=
  ⟨rfl, rfl, (C3_spawn_blocked_iff 0 demoSpawn (mkState []) rfl rfl).1⟩

/-- `checkClears` never touches the active-piece reference. -/
theorem checkClears_activeId (cq : Body → Body → Bool) (now : ℤ) (s : GameState) :
    (checkClears cq now s).activeId = s.activeId := by
  unfold checkClears
  dsimp only
  split
  · rfl
  · split <;> rfl

/-- `checkClears` never touches the `wasMoving` flag. -/
theorem checkClears_wasMoving (cq : Body → Body → Bool) (now : ℤ) (s : GameState) :
    (checkClears cq now s).wasMoving = s.wasMoving := by
  unfold checkClears
  dsimp only
  split
  · rfl
  · split <;> rfl

/-- `checkClears` never touches the pause and game-over flags. -/
theorem checkClears_flags (cq : Body → Body → Bool) (now : ℤ) (s : GameState) :
    (checkClears cq now s).isPaused = s.isPaused ∧
      (checkClears cq now s).isGameOver = s.isGameOver := by
  unfold checkClears
  dsimp only
  constructor <;>
    · split
      · rfl
      · split <;> rfl

/-- A tick with no active piece leaves the state to the pile phase alone. -/
theorem settlePhase_none (cq : Body → Body → Bool) (now : ℤ) (s : GameState)
    (h : s.activeId = none) : settlePhase cq now s = s := by
  unfold settlePhase
  rw [h]

/-- The settle phase never touches the `wasMoving` flag. -/
theorem settlePhase_wasMoving (cq : Body → Body → Bool) (now : ℤ) (s : GameState) :
    (settlePhase cq now s).wasMoving = s.wasMoving := by
  unfold settlePhase
  cases h : s.activeId with
  | none => rfl
  | some i =>
    cases hf : findBody s.bodies i with
    | none => simp [hf]
    | some a =>
      simp only [hf]
      split
      · rw [checkClears_wasMoving]
      · rfl

/-- **C1.**  While a piece is active and the game is neither paused nor over,
the per-tick settle check retires the piece exactly when the settle
disjunction holds — low speed while touching the pile/ground, or stagnation
while far below the spawn area, or past the near-floor line — and on that
transition relabels it `settled`, clears the active reference, adds the fixed
10-point placement score, records the action timestamp, runs `checkClears`,
and schedules the next spawn 300 ms out; otherwise the piece stays active and
only the touch/stagnation tracking is refreshed.  The tick entry point
`checkSettle` runs this phase followed by the pile phase. -/
theorem C1_settle (cq : Body → Body → Bool) (now : ℤ) (sp : SpawnArgs) (s : GameState)
    (i : ℕ) (a : Body)
    (hp : s.isPaused = false) (hg : s.isGameOver = false)
    (ha : s.activeId = some i) (hf : findBody s.bodies i = some a) :
    ((settlePhase cq now s).activeId = none ↔ settleCondition cq now s.bodies a = true) ∧
      (settleCondition cq now s.bodies a = true →
        settlePhase cq now s =
          checkClears cq now
            { s with
              bodies := updateBody (updateBody s.bodies i (fun _ => refreshTracking now a)) i
                (fun b => { b with label := "settled" })
              activeId := none
              score := s.score + 10
              lastActionTime := now
              pendingSpawnAt := some (now + 300)
              isTouchingPile := (obstaclesOf s.bodies).any (fun o => cq a o) }) ∧
      (settleCondition cq now s.bodies a = false →
        settlePhase cq now s =
          { s with
            bodies := updateBody s.bodies i (fun _ => refreshTracking now a)
            isTouchingPile := (obstaclesOf s.bodies).any (fun o => cq a o) }) ∧
      checkSettleEv cq now sp s = pilePhase cq now sp (settlePhase cq now s) := by
  refine ⟨?_, ?_, ?_, ?_⟩
  · unfold settlePhase
    simp only [ha, hf]
    cases hc : settleCondition cq now s.bodies a with
    | true => simp [hc, checkClears_activeId]
    | false => simp [hc, ha]
  · intro hc
    unfold settlePhase
    simp only [ha, hf]
    simp [hc]
  · intro hc
    unfold settlePhase
    simp only [ha, hf]
    simp [hc]
  · unfold checkSettleEv
    simp [hp, hg]

/-- **C1, witness.** -/
theorem C1_witness :
    activeDemo.isPaused = false ∧ activeDemo.isGameOver = false ∧
      activeDemo.activeId = some 7 ∧
      findBody activeDemo.bodies 7 = some (mkActivePiece 0 demoSpawn) ∧
      ((settlePhase allCq 1 activeDemo).activeId = none ↔
        settleCondition allCq 1 activeDemo.bodies (mkActivePiece 0 demoSpawn) = true) :=
  ⟨rfl, rfl, rfl, by decide,
    (C1_settle allCq 1 demoSpawn activeDemo 7 (mkActivePiece 0 demoSpawn)
      rfl rfl rfl (by decide)).1⟩

/-- Reachability stays inside the partition. -/
theorem reachIn_mem (adj : Body → Body → Bool) (pieces : List Body) {a b : Body}
    (ha : a ∈ pieces) (h : ReachIn adj pieces a b) : b ∈ pieces := by
  induction h with
  | refl => exact ha
  | tail _ hstep _ => exact hstep.1

/-- With a symmetric adjacency, reachability inside the partition is
symmetric. -/
theorem reachIn_symm (adj : Body → Body → Bool) (pieces : List Body)
    (hsym : ∀ x y : Body, adj x y = adj y x) {a b : Body}
    (ha : a ∈ pieces) (h : ReachIn adj pieces a b) : ReachIn adj pieces b a := by
  induction h with
  | refl => exact .refl
  | @tail b1 c hab hstep ih =>
    exact Relation.ReflTransGen.head
      ⟨reachIn_mem adj pieces ha hab, (hsym c b1).trans hstep.2 ▸ rfl⟩ ih

/-- `distSq` is symmetric. -/
theorem distSq_comm (a b : V2) : distSq a b = distSq b a := by
  unfold distSq
  ring

/-- The proximity fallback is symmetric. -/
theorem proximity_symm (a b : Body) : proximity a b = proximity b a := by
  have h : ∀ x y : Body, proximity x y = true → proximity y x = true := by
    intro x y hxy
    unfold proximity at hxy ⊢
    simp only [List.any_eq_true, decide_eq_true_eq] at hxy ⊢
    obtain ⟨pA, hA, pB, hB, hd⟩ := hxy
    exact ⟨pB, hB, pA, hA, by rwa [distSq_comm]⟩
  cases hab : proximity a b with
  | true => exact ((h a b hab).symm)
  | false =>
    cases hba : proximity b a with
    | true => rw [h b a hba] at hab; exact hab.symm ▸ rfl
    | false => rfl

/-- With a symmetric contact oracle the whole adjacency test is symmetric. -/
theorem touching_symm (cq : Body → Body → Bool)
    (hsym : ∀ x y : Body, cq x y = cq y x) (a b : Body) :
    touching cq a b = touching cq b a := by
  unfold touching
  rw [hsym, proximity_symm]

/-- Within a list of bodies with pairwise-distinct ids, the id determines the
body. -/
theorem eq_of_id_eq {l : List Body} (hnd : (l.map (fun b => b.id)).Nodup)
    {a b : Body} (ha : a ∈ l) (hb : b ∈ l) (h : a.id = b.id) : a = b := by
  have := List.inj_on_of_nodup_map hnd
  exact this ha hb h

/-- Membership in the id set. -/
theorem mem_idsOf {l : List Body} {i : ℕ} : i ∈ idsOf l ↔ ∃ b ∈ l, b.id = i := by
  simp [idsOf]

/-- Filtering preserves distinctness of ids. -/
theorem nodup_ids_filter (l : List Body) (p : Body → Bool)
    (hnd : (l.map (fun b => b.id)).Nodup) :
    ((l.filter p).map (fun b => b.id)).Nodup :=
  List.Nodup.sublist (List.Sublist.map _ (List.filter_sublist l)) hnd

/-- An exhausted stack turns the loop invariant into the postcondition. -/
theorem dfsPost_of_empty (adj : Body → Body → Bool) (pieces : List Body) (p₀ : Body)
    (V₀ : Finset ℕ) (visited : Finset ℕ) (group : List Body)
    (hinv : DfsState adj pieces p₀ V₀ [] visited group) :
    DfsPost adj pieces p₀ V₀ (group, visited) where
  group_mem := hinv.group_mem
  group_reach := hinv.group_reach
  complete := by
    intro y hy hid
    rcases hinv.visited_split y hy hid with h | h | h
    · exact Or.inl h
    · exact Or.inr h
    · exact absurd h (List.not_mem_nil y)
  marked := hinv.marked_group
  frontier := hinv.frontier
  nodup := by simpa using hinv.nodup_group
  base_sub := hinv.base_sub
  fresh := hinv.fresh
  group_new := hinv.group_new

/-- The flood-fill loop, run with enough fuel from a state satisfying the
invariant, satisfies the postcondition; moreover everything already on the
stack or in the group ends up in the final group, and the visited set only
grows. -/
theorem dfsLoop_post (adj : Body → Body → Bool) (pieces : List Body)
    (hnd : (pieces.map (fun b => b.id)).Nodup) (p₀ : Body) (V₀ : Finset ℕ) :
    ∀ (fuel : ℕ) (stack : List Body) (visited : Finset ℕ) (group : List Body),
      DfsState adj pieces p₀ V₀ stack visited group →
      stack.length + ((idsOf pieces) \ visited).card ≤ fuel →
      DfsPost adj pieces p₀ V₀ (dfsLoop adj pieces fuel stack visited group) ∧
        (∀ x ∈ stack, x ∈ (dfsLoop adj pieces fuel stack visited group).1) ∧
        (∀ x ∈ group, x ∈ (dfsLoop adj pieces fuel stack visited group).1) ∧
        visited ⊆ (dfsLoop adj pieces fuel stack visited group).2 := by
  intro fuel
  induction fuel with
  | zero =>
    intro stack visited group hinv hfuel
    have hs : stack = [] := by
      have : stack.length = 0 := Nat.le_zero.mp (le_trans (Nat.le_add_right _ _) hfuel)
      exact List.length_eq_zero.mp this
    subst hs
    refine ⟨dfsPost_of_empty adj pieces p₀ V₀ visited group hinv, ?_, ?_, ?_⟩
    · intro x hx; exact absurd hx (List.not_mem_nil x)
    · intro x hx; exact hx
    · intro i hi; exact hi
  | succ f ih =>
    intro stack visited group hinv hfuel
    cases stack with
    | nil =>
      refine ⟨dfsPost_of_empty adj pieces p₀ V₀ visited group hinv, ?_, ?_, ?_⟩
      · intro x hx; exact absurd hx (List.not_mem_nil x)
      · intro x hx; exact hx
      · intro i hi; exact hi
    | cons c st =>
      have hc_mem : c ∈ pieces := hinv.stack_mem c (List.mem_cons_self c st)
      have hc_reach : ReachIn adj pieces p₀ c :=
        hinv.stack_reach c (List.mem_cons_self c st)
      have hc_vis : c.id ∈ visited := hinv.marked_stack c (List.mem_cons_self c st)
      have hc_new : c.id ∉ V₀ := hinv.stack_new c (List.mem_cons_self c st)
      set news := pieces.filter (fun o => decide (o.id ∉ visited) && adj c o) with hnews
      have hnews_spec : ∀ o, o ∈ news ↔ o ∈ pieces ∧ o.id ∉ visited ∧ adj c o = true := by
        intro o
        rw [hnews]
        simp [List.mem_filter]
      have hstep : dfsLoop adj pieces (f + 1) (c :: st) visited group =
          dfsLoop adj pieces f (news ++ st) (visited ∪ idsOf news) (group ++ [c]) := by
        rw [dfsLoop]
      have hnews_nodup : (news.map (fun b => b.id)).Nodup := nodup_ids_filter _ _ hnd
      have hnews_ids_sub : idsOf news ⊆ idsOf pieces \ visited := by
        intro i hi
        rcases mem_idsOf.mp hi with ⟨o, ho, rfl⟩
        rcases (hnews_spec o).mp ho with ⟨hop, hov, _⟩
        exact Finset.mem_sdiff.mpr ⟨mem_idsOf.mpr ⟨o, hop, rfl⟩, hov⟩
      have hnews_card : (idsOf news).card = news.length := by
        rw [idsOf, List.toFinset_card_of_nodup hnews_nodup, List.length_map]
      -- the new invariant
      have hinv' : DfsState adj pieces p₀ V₀ (news ++ st) (visited ∪ idsOf news)
          (group ++ [c]) := by
        refine ⟨?_, ?_, ?_, ?_, ?_, ?_, ?_, ?_, ?_, ?_, ?_, ?_, ?_, ?_, ?_, ?_⟩
        · intro x hx
          rcases List.mem_append.mp hx with hx | hx
          · exact ((hnews_spec x).mp hx).1
          · exact hinv.stack_mem x (List.mem_cons_of_mem c hx)
        · intro x hx
          rcases List.mem_append.mp hx with hx | hx
          · rcases (hnews_spec x).mp hx with ⟨hxp, _, hadj⟩
            exact Relation.ReflTransGen.tail hc_reach ⟨hxp, hadj⟩
          · exact hinv.stack_reach x (List.mem_cons_of_mem c hx)
        · intro g hg
          rcases List.mem_append.mp hg with hg | hg
          · exact hinv.group_mem g hg
          · rw [List.mem_singleton.mp hg]; exact hc_mem
        · intro g hg
          rcases List.mem_append.mp hg with hg | hg
          · exact hinv.group_reach g hg
          · rw [List.mem_singleton.mp hg]; exact hc_reach
        · intro y hy hid
          rcases Finset.mem_union.mp hid with hid | hid
          · exact hinv.visited_sound y hy hid
          · rcases mem_idsOf.mp hid with ⟨o, ho, hoid⟩
            rcases (hnews_spec o).mp ho with ⟨hop, _, hadj⟩
            have : o = y := eq_of_id_eq hnd hop hy hoid
            subst this
            exact Or.inr (Relation.ReflTransGen.tail hc_reach ⟨hop, hadj⟩)
        · intro y hy hid
          rcases Finset.mem_union.mp hid with hid | hid
          · rcases hinv.visited_split y hy hid with h | h | h
            · exact Or.inl h
            · exact Or.inr (Or.inl (List.mem_append.mpr (Or.inl h)))
            · rcases List.mem_cons.mp h with h | h
              · subst h
                exact Or.inr (Or.inl (List.mem_append.mpr (Or.inr (List.mem_singleton.mpr rfl))))
              · exact Or.inr (Or.inr (List.mem_append.mpr (Or.inr h)))
          · rcases mem_idsOf.mp hid with ⟨o, ho, hoid⟩
            have : o = y := eq_of_id_eq hnd (((hnews_spec o).mp ho).1) hy hoid
            subst this
            exact Or.inr (Or.inr (List.mem_append.mpr (Or.inl ho)))
        · intro x hx
          rcases List.mem_append.mp hx with hx | hx
          · exact Finset.mem_union_right _ (mem_idsOf.mpr ⟨x, hx, rfl⟩)
          · exact Finset.mem_union_left _ (hinv.marked_stack x (List.mem_cons_of_mem c hx))
        · intro x hx
          rcases List.mem_append.mp hx with hx | hx
          · exact Finset.mem_union_left _ (hinv.marked_group x hx)
          · rw [List.mem_singleton.mp hx]; exact Finset.mem_union_left _ hc_vis
        · intro g hg y hy hadj
          rcases List.mem_append.mp hg with hg | hg
          · exact Finset.mem_union_left _ (hinv.frontier g hg y hy hadj)
          · rw [List.mem_singleton.mp hg] at hadj
            by_cases hyv : y.id ∈ visited
            · exact Finset.mem_union_left _ hyv
            · exact Finset.mem_union_right _
                (mem_idsOf.mpr ⟨y, (hnews_spec y).mpr ⟨hy, hyv, hadj⟩, rfl⟩)
        · rw [List.map_append, List.nodup_append]
          refine ⟨hinv.nodup_group, by simp, ?_⟩
          intro i hi hj
          simp only [List.map_cons, List.map_nil, List.mem_singleton] at hj
          rcases List.mem_map.mp hi with ⟨g, hg, rfl⟩
          exact hinv.disj g hg c (List.mem_cons_self c st) hj
        · rw [List.map_append, List.nodup_append]
          refine ⟨hnews_nodup, List.Nodup.of_cons (by simpa using hinv.nodup_stack), ?_⟩
          intro i hi hj
          rcases List.mem_map.mp hi with ⟨o, ho, rfl⟩
          rcases List.mem_map.mp hj with ⟨x, hx, hxid⟩
          have hxo : o.id ∉ visited := ((hnews_spec o).mp ho).2.1
          exact hxo (hxid ▸ hinv.marked_stack x (List.mem_cons_of_mem c hx))
        · intro x hx y hy
          rcases List.mem_append.mp hx with hx | hx
          · rcases List.mem_append.mp hy with hy | hy
            · intro h
              exact ((hnews_spec y).mp hy).2.1 (h ▸ hinv.marked_group x hx)
            · exact hinv.disj x hx y (List.mem_cons_of_mem c hy)
          · rw [List.mem_singleton.mp hx]
            rcases List.mem_append.mp hy with hy | hy
            · intro h
              exact ((hnews_spec y).mp hy).2.1 (h ▸ hc_vis)
            · intro h
              have := hinv.nodup_stack
              rw [List.map_cons, List.nodup_cons] at this
              exact this.1 (List.mem_map.mpr ⟨y, hy, h.symm⟩)
        · exact le_trans hinv.base_sub (Finset.subset_union_left)
        · intro i hi
          rcases Finset.mem_union.mp hi with hi | hi
          · exact hinv.fresh i hi
          · rcases mem_idsOf.mp hi with ⟨o, ho, rfl⟩
            exact Or.inr (mem_idsOf.mpr ⟨o, ((hnews_spec o).mp ho).1, rfl⟩)
        · intro x hx
          rcases List.mem_append.mp hx with hx | hx
          · intro hV
            exact ((hnews_spec x).mp hx).2.1 (hinv.base_sub hV)
          · exact hinv.stack_new x (List.mem_cons_of_mem c hx)
        · intro g hg
          rcases List.mem_append.mp hg with hg | hg
          · exact hinv.group_new g hg
          · rw [List.mem_singleton.mp hg]; exact hc_new
      -- the fuel budget still holds
      have hfuel' : (news ++ st).length +
          ((idsOf pieces) \ (visited ∪ idsOf news)).card ≤ f := by
        have hsd : (idsOf pieces) \ (visited ∪ idsOf news) =
            ((idsOf pieces) \ visited) \ idsOf news := by
          ext i
          simp only [Finset.mem_sdiff, Finset.mem_union]
          tauto
        have hcard : (((idsOf pieces) \ visited) \ idsOf news).card =
            ((idsOf pieces) \ visited).card - news.length := by
          rw [Finset.card_sdiff hnews_ids_sub, hnews_card]
        have hle : news.length ≤ ((idsOf pieces) \ visited).card := by
          rw [← hnews_card]
          exact Finset.card_le_card hnews_ids_sub
        have hbase : st.length + 1 + ((idsOf pieces) \ visited).card ≤ f + 1 := by
          simpa [List.length_cons] using hfuel
        rw [hsd, hcard, List.length_append]
        omega
      have := ih (news ++ st) (visited ∪ idsOf news) (group ++ [c]) hinv' hfuel'
      rw [hstep]
      refine ⟨this.1, ?_, ?_, ?_⟩
      · intro x hx
        rcases List.mem_cons.mp hx with hx | hx
        · subst hx
          exact this.2.2.1 x (List.mem_append.mpr (Or.inr (List.mem_singleton.mpr rfl)))
        · exact this.2.1 x (List.mem_append.mpr (Or.inr hx))
      · intro x hx
        exact this.2.2.1 x (List.mem_append.mpr (Or.inl hx))
      · exact le_trans (le_trans Finset.subset_union_left this.2.2.2) le_rfl

/-- Inside a partition, a set of ids closed under adjacency absorbs
reachability. -/
theorem reach_closed (adj : Body → Body → Bool) (pieces : List Body) (V : Finset ℕ)
    (hclosed : ∀ x ∈ pieces, ∀ y ∈ pieces, x.id ∈ V → adj x y = true → y.id ∈ V)
    {a b : Body} (ha : a ∈ pieces) (haV : a.id ∈ V) (h : ReachIn adj pieces a b) :
    b.id ∈ V := by
  induction h with
  | refl => exact haV
  | @tail b1 c hab hstep ih =>
    exact hclosed b1 (reachIn_mem adj pieces ha hab) c hstep.1 ih hstep.2

/-- One flood fill started at an unvisited body `p`, with the previously
visited ids closed under adjacency, collects exactly the connected component
of `p` in the partition, and marks exactly that component as newly visited. -/
theorem dfs_component (adj : Body → Body → Bool) (pieces : List Body)
    (hnd : (pieces.map (fun b => b.id)).Nodup)
    (hsym : ∀ x y : Body, adj x y = adj y x)
    (p : Body) (hp : p ∈ pieces) (V₀ : Finset ℕ) (hpV : p.id ∉ V₀)
    (hclosed : ∀ x ∈ pieces, ∀ y ∈ pieces, x.id ∈ V₀ → adj x y = true → y.id ∈ V₀)
    (r : List Body × Finset ℕ)
    (hr : r = dfsLoop adj pieces (pieces.length + 1) [p] (insert p.id V₀) []) :
    (∀ y ∈ pieces, (y ∈ r.1 ↔ ReachIn adj pieces p y)) ∧
      (∀ y ∈ pieces, (y.id ∈ r.2 ↔ y.id ∈ V₀ ∨ ReachIn adj pieces p y)) ∧
      (r.1.map (fun b => b.id)).Nodup ∧
      (∀ g ∈ r.1, g ∈ pieces) ∧
      V₀ ⊆ r.2 ∧
      (∀ i ∈ r.2, i ∈ V₀ ∨ i ∈ idsOf pieces) ∧
      (∀ g ∈ r.1, g.id ∉ V₀) ∧
      (∀ x ∈ pieces, ∀ y ∈ pieces, x.id ∈ r.2 → adj x y = true → y.id ∈ r.2) ∧
      p ∈ r.1 := by
  have hinv : DfsState adj pieces p V₀ [p] (insert p.id V₀) [] := by
    refine ⟨?_, ?_, ?_, ?_, ?_, ?_, ?_, ?_, ?_, ?_, ?_, ?_, ?_, ?_, ?_, ?_⟩
    · intro x hx; rw [List.mem_singleton.mp hx]; exact hp
    · intro x hx; rw [List.mem_singleton.mp hx]; exact .refl
    · intro g hg; exact absurd hg (List.not_mem_nil g)
    · intro g hg; exact absurd hg (List.not_mem_nil g)
    · intro y hy hid
      rcases Finset.mem_insert.mp hid with h | h
      · have : p = y := eq_of_id_eq hnd hp hy h.symm
        subst this
        exact Or.inr .refl
      · exact Or.inl h
    · intro y hy hid
      rcases Finset.mem_insert.mp hid with h | h
      · have : p = y := eq_of_id_eq hnd hp hy h.symm
        subst this
        exact Or.inr (Or.inr (List.mem_singleton.mpr rfl))
      · exact Or.inl h
    · intro x hx; rw [List.mem_singleton.mp hx]; exact Finset.mem_insert_self _ _
    · intro x hx; exact absurd hx (List.not_mem_nil x)
    · intro g hg; exact absurd hg (List.not_mem_nil g)
    · simp
    · simp
    · intro x hx; exact absurd hx (List.not_mem_nil x)
    · exact Finset.subset_insert _ _
    · intro i hi
      rcases Finset.mem_insert.mp hi with h | h
      · exact Or.inr (h ▸ mem_idsOf.mpr ⟨p, hp, rfl⟩)
      · exact Or.inl h
    · intro x hx; rw [List.mem_singleton.mp hx]; exact hpV
    · intro g hg; exact absurd hg (List.not_mem_nil g)
  have hfuel : ([p] : List Body).length +
      ((idsOf pieces) \ insert p.id V₀).card ≤ pieces.length + 1 := by
    have h1 : ((idsOf pieces) \ insert p.id V₀).card ≤ (idsOf pieces).card :=
      Finset.card_le_card (Finset.sdiff_subset)
    have h2 : (idsOf pieces).card ≤ pieces.length := by
      calc (idsOf pieces).card ≤ (pieces.map (fun b => b.id)).length :=
            List.toFinset_card_le _
        _ = pieces.length := List.length_map _ _
    simp only [List.length_singleton]
    omega
  obtain ⟨hpost, hst, _, hvis⟩ :=
    dfsLoop_post adj pieces hnd p V₀ (pieces.length + 1) [p] (insert p.id V₀) []
      hinv hfuel
  rw [← hr] at hpost hst hvis
  have hpr : p ∈ r.1 := hst p (List.mem_singleton.mpr rfl)
  -- completeness: everything reachable from p lands in the final group
  have hcompl : ∀ y : Body, ReachIn adj pieces p y → y ∈ r.1 := by
    intro y hy
    induction hy with
    | refl => exact hpr
    | @tail b1 c hab hstep ih =>
      have hcid : c.id ∈ r.2 :=
        hpost.frontier b1 ih c hstep.1 hstep.2
      rcases hpost.complete c hstep.1 hcid with h | h
      · exfalso
        have hreach_pc : ReachIn adj pieces p c := Relation.ReflTransGen.tail hab hstep
        have hreach_cp : ReachIn adj pieces c p := reachIn_symm adj pieces hsym hp hreach_pc
        exact hpV (reach_closed adj pieces V₀ hclosed hstep.1 h hreach_cp)
      · exact h
  refine ⟨?_, ?_, hpost.nodup, hpost.group_mem, hpost.base_sub, hpost.fresh,
    hpost.group_new, ?_, hpr⟩
  · intro y hy
    exact ⟨hpost.group_reach y, hcompl y⟩
  · intro y hy
    constructor
    · intro hid
      rcases hpost.complete y hy hid with h | h
      · exact Or.inl h
      · exact Or.inr (hpost.group_reach y h)
    · intro h
      rcases h with h | h
      · exact hpost.base_sub h
      · exact hpost.marked y (hcompl y h)
  · intro x hx y hy hid hadj
    rcases hpost.complete x hx hid with h | h
    · exact hpost.base_sub (hclosed x hx y hy h hadj)
    · exact hpost.frontier x h y hy hadj

/-- A component certificate is unique. -/
theorem compIdsSpec_unique (adj : Body → Body → Bool) (pieces : List Body) {b : Body}
    {c₁ c₂ : Finset ℕ} (h₁ : CompIdsSpec adj pieces b c₁)
    (h₂ : CompIdsSpec adj pieces b c₂) : c₁ = c₂ := by
  ext i
  constructor
  · intro hi
    obtain ⟨q, hq, rfl⟩ := h₁.1 i hi
    exact (h₂.2 q hq).mpr ((h₁.2 q hq).mp hi)
  · intro hi
    obtain ⟨q, hq, rfl⟩ := h₂.1 i hi
    exact (h₁.2 q hq).mpr ((h₂.2 q hq).mp hi)

/-- A component certificate transfers to any member of the component. -/
theorem compIdsSpec_shift (adj : Body → Body → Bool) (pieces : List Body)
    (hsym : ∀ x y : Body, adj x y = adj y x) {b c : Body} (hb : b ∈ pieces)
    (hreach : ReachIn adj pieces b c) {comp : Finset ℕ}
    (hspec : CompIdsSpec adj pieces b comp) : CompIdsSpec adj pieces c comp := by
  refine ⟨hspec.1, ?_⟩
  intro q hq
  rw [hspec.2 q hq]
  constructor
  · intro h
    exact (reachIn_symm adj pieces hsym hb hreach).trans h
  · intro h
    exact hreach.trans h

/-- The per-partition outer loop of the marking pass: starting flood fills
from every unprocessed candidate decides, for every member of the partition
that ends up visited, membership in the removal set exactly by the size of
its connected component. -/
theorem scanPieces_post (adj : Body → Body → Bool) (pieces : List Body)
    (hnd : (pieces.map (fun b => b.id)).Nodup)
    (hsym : ∀ x y : Body, adj x y = adj y x) :
    ∀ (rest : List Body) (toRem visited : Finset ℕ),
      (∀ x ∈ rest, x ∈ pieces) →
      (∀ x ∈ pieces, ∀ y ∈ pieces, x.id ∈ visited → adj x y = true → y.id ∈ visited) →
      (∀ i ∈ toRem, i ∈ visited) →
      (∀ b ∈ pieces, b.id ∈ visited → (b.id ∈ toRem ↔ BigIn adj pieces b)) →
      (∀ x ∈ pieces, ∀ y ∈ pieces,
          x.id ∈ (scanPieces adj pieces rest (toRem, visited)).2 → adj x y = true →
            y.id ∈ (scanPieces adj pieces rest (toRem, visited)).2) ∧
        visited ⊆ (scanPieces adj pieces rest (toRem, visited)).2 ∧
        (∀ x ∈ rest, x.id ∈ (scanPieces adj pieces rest (toRem, visited)).2) ∧
        (∀ b ∈ pieces, b.id ∈ (scanPieces adj pieces rest (toRem, visited)).2 →
          (b.id ∈ (scanPieces adj pieces rest (toRem, visited)).1 ↔ BigIn adj pieces b)) ∧
        (∀ i ∈ (scanPieces adj pieces rest (toRem, visited)).1,
          i ∈ (scanPieces adj pieces rest (toRem, visited)).2) ∧
        (∀ i, i ∉ idsOf pieces →
          (i ∈ (scanPieces adj pieces rest (toRem, visited)).1 ↔ i ∈ toRem)) ∧
        (∀ i ∈ (scanPieces adj pieces rest (toRem, visited)).2,
          i ∈ visited ∨ i ∈ idsOf pieces) := by
  intro rest
  induction rest with
  | nil =>
    intro toRem visited hrest hclosed hsub hchar
    simp only [scanPieces]
    refine ⟨hclosed, le_rfl, ?_, hchar, hsub, ?_, fun i hi => Or.inl hi⟩
    · intro x hx
      exact absurd hx (List.not_mem_nil x)
    · intro i _
      trivial
  | cons p rest' ih =>
    intro toRem visited hrest hclosed hsub hchar
    have hp_mem : p ∈ pieces := hrest p (List.mem_cons_self p rest')
    by_cases hpv : p.id ∈ visited
    · have hstep : scanPieces adj pieces (p :: rest') (toRem, visited) =
          scanPieces adj pieces rest' (toRem, visited) := by
        rw [scanPieces]
        simp [hpv]
      rw [hstep]
      obtain ⟨c1, c2, c3, c4, c5, c6, c7⟩ :=
        ih toRem visited (fun x hx => hrest x (List.mem_cons_of_mem p hx))
          hclosed hsub hchar
      refine ⟨c1, c2, ?_, c4, c5, c6, c7⟩
      intro x hx
      rcases List.mem_cons.mp hx with hx | hx
      · exact c2 (hx ▸ hpv)
      · exact c3 x hx
    · -- run the flood fill from p
      obtain ⟨hg_iff, hv_iff, hg_nodup, hg_mem, hv_sub, hv_fresh, hg_new, hv_closed, hpg⟩ :=
        dfs_component adj pieces hnd hsym p hp_mem visited hpv hclosed
          (dfsLoop adj pieces (pieces.length + 1) [p] (insert p.id visited) []) rfl
      set r1 := dfsLoop adj pieces (pieces.length + 1) [p] (insert p.id visited) []
        with hr1
      have hstep : scanPieces adj pieces (p :: rest') (toRem, visited) =
          scanPieces adj pieces rest'
            (if minClusterToClear ≤ r1.1.length then toRem ∪ idsOf r1.1 else toRem,
              r1.2) := by
        rw [scanPieces]
        simp [hpv, hr1]
      have hg_marked : ∀ x ∈ r1.1, x.id ∈ r1.2 := by
        intro x hx
        exact (hv_iff x (hg_mem x hx)).mpr (Or.inr ((hg_iff x (hg_mem x hx)).mp hx))
      have hg_ids_card : (idsOf r1.1).card = r1.1.length := by
        rw [idsOf, List.toFinset_card_of_nodup hg_nodup, List.length_map]
      -- the component certificate carried by the fill
      have hspec_p : CompIdsSpec adj pieces p (idsOf r1.1) := by
        refine ⟨?_, ?_⟩
        · intro i hi
          rcases mem_idsOf.mp hi with ⟨x, hx, rfl⟩
          exact ⟨x, hg_mem x hx, rfl⟩
        · intro q hq
          constructor
          · intro hid
            rcases mem_idsOf.mp hid with ⟨x, hx, hxid⟩
            have : x = q := eq_of_id_eq hnd (hg_mem x hx) hq hxid
            subst this
            exact (hg_iff x hq).mp hx
          · intro hreach
            exact mem_idsOf.mpr ⟨q, (hg_iff q hq).mpr hreach, rfl⟩
      have hchar2 : ∀ b ∈ pieces, b.id ∈ r1.2 →
          ((b.id ∈ (if minClusterToClear ≤ r1.1.length then toRem ∪ idsOf r1.1
            else toRem)) ↔ BigIn adj pieces b) := by
        intro b hb hbid
        rcases (hv_iff b hb).mp hbid with hbv | hreach
        · -- previously visited: the fill adds nothing about b
          have hnotg : b.id ∉ idsOf r1.1 := by
            intro hmem
            rcases mem_idsOf.mp hmem with ⟨x, hx, hxid⟩
            have : x = b := eq_of_id_eq hnd (hg_mem x hx) hb hxid
            subst this
            exact hg_new x hx hbv
          have : (b.id ∈ (if minClusterToClear ≤ r1.1.length then toRem ∪ idsOf r1.1
              else toRem)) ↔ b.id ∈ toRem := by
            split
            · simp [hnotg]
            · exact Iff.rfl
          rw [this]
          exact hchar b hb hbv
        · -- freshly collected: b is in the component of p
          have hbg : b ∈ r1.1 := (hg_iff b hb).mpr hreach
          have hspec_b : CompIdsSpec adj pieces b (idsOf r1.1) :=
            compIdsSpec_shift adj pieces hsym hp_mem hreach hspec_p
          have hbig_iff : BigIn adj pieces b ↔ minClusterToClear ≤ r1.1.length := by
            constructor
            · rintro ⟨comp, hcs, hcard⟩
              rw [compIdsSpec_unique adj pieces hcs hspec_b] at hcard
              rwa [hg_ids_card] at hcard
            · intro hlen
              exact ⟨idsOf r1.1, hspec_b, by rwa [hg_ids_card]⟩
          rw [hbig_iff]
          have hb_not_toRem : b.id ∉ toRem := by
            intro h
            have hbv := hsub _ h
            exact hg_new b hbg hbv
          split
          · rename_i hbig
            simp [hbig, Finset.mem_union, mem_idsOf.mpr ⟨b, hbg, rfl⟩]
          · rename_i hbig
            simp [hbig, hb_not_toRem]
      have hsub2 : ∀ i ∈ (if minClusterToClear ≤ r1.1.length then toRem ∪ idsOf r1.1
          else toRem), i ∈ r1.2 := by
        intro i hi
        have hvis_le : visited ⊆ r1.2 := hv_sub
        split at hi
        · rcases Finset.mem_union.mp hi with hi | hi
          · exact hvis_le (hsub i hi)
          · rcases mem_idsOf.mp hi with ⟨x, hx, rfl⟩
            exact hg_marked x hx
        · exact hvis_le (hsub i hi)
      obtain ⟨c1, c2, c3, c4, c5, c6, c7⟩ :=
        ih _ r1.2 (fun x hx => hrest x (List.mem_cons_of_mem p hx))
          hv_closed hsub2 hchar2
      rw [hstep]
      refine ⟨c1, le_trans hv_sub c2, ?_, c4, c5, ?_, ?_⟩
      · intro x hx
        rcases List.mem_cons.mp hx with hx | hx
        · subst hx
          exact c2 (hg_marked x hpg)
        · exact c3 x hx
      · intro i hi
        rw [c6 i hi]
        have : i ∉ idsOf r1.1 := by
          intro hmem
          rcases mem_idsOf.mp hmem with ⟨x, hx, rfl⟩
          exact hi (mem_idsOf.mpr ⟨x, hg_mem x hx, rfl⟩)
        split
        · simp [this]
        · exact Iff.rfl
      · intro i hi
        rcases c7 i hi with h | h
        · rcases hv_fresh i h with h' | h'
          · exact Or.inl h'
          · exact Or.inr h'
        · exact Or.inr h

/-- The key-collecting fold only grows the accumulator. -/
theorem typeKeys_mono (l : List Body) :
    ∀ (ks : List String) (k : String), k ∈ ks →
      k ∈ l.foldl (fun ks b => if b.pieceType ∈ ks then ks else ks ++ [b.pieceType]) ks := by
  induction l with
  | nil => intro ks k hk; exact hk
  | cons a l ih =>
    intro ks k hk
    simp only [List.foldl_cons]
    apply ih
    split
    · exact hk
    · exact List.mem_append.mpr (Or.inl hk)

/-- Every body's archetype appears among the collected keys. -/
theorem mem_typeKeys (l : List Body) :
    ∀ (ks : List String) (b : Body), b ∈ l →
      b.pieceType ∈ l.foldl (fun ks b => if b.pieceType ∈ ks then ks else ks ++ [b.pieceType]) ks := by
  induction l with
  | nil => intro ks b hb; exact absurd hb (List.not_mem_nil b)
  | cons a l ih =>
    intro ks b hb
    simp only [List.foldl_cons]
    rcases List.mem_cons.mp hb with hb | hb
    · subst hb
      apply typeKeys_mono
      split
      · assumption
      · exact List.mem_append.mpr (Or.inr (List.mem_singleton.mpr rfl))
    · exact ih _ b hb

/-- Every body's archetype is a key of the grouping. -/
theorem pieceType_mem_typeKeys {l : List Body} {b : Body} (hb : b ∈ l) :
    b.pieceType ∈ typeKeys l :=
  mem_typeKeys l [] b hb

/-- The collected keys are pairwise distinct. -/
theorem typeKeys_nodup_aux (l : List Body) :
    ∀ ks : List String, ks.Nodup →
      (l.foldl (fun ks b => if b.pieceType ∈ ks then ks else ks ++ [b.pieceType]) ks).Nodup := by
  induction l with
  | nil => intro ks h; exact h
  | cons a l ih =>
    intro ks h
    simp only [List.foldl_cons]
    apply ih
    split
    · exact h
    · rename_i hnotin
      simp [List.nodup_append, h, hnotin]

/-- The grouping keys are pairwise distinct. -/
theorem typeKeys_nodup (l : List Body) : (typeKeys l).Nodup :=
  typeKeys_nodup_aux l [] List.nodup_nil

/-- The whole marking pass of `checkClears`: a settled top-level body's id is
collected exactly when the body lies in a same-archetype connected component
of size at least `minClusterToClear`, and only ids of listed bodies are
collected. -/
theorem scanAll_char (cq : Body → Body → Bool)
    (hsym : ∀ x y : Body, cq x y = cq y x) (settled : List Body)
    (hnd : (settled.map (fun b => b.id)).Nodup) :
    (∀ b ∈ settled, (b.id ∈ scanAll cq settled ↔ BigCluster cq settled b)) ∧
      ∀ i ∈ scanAll cq settled, ∃ b ∈ settled, b.id = i := by
  have htsym : ∀ x y : Body, touching cq x y = touching cq y x := touching_symm cq hsym
  set step : Finset ℕ × Finset ℕ → String → Finset ℕ × Finset ℕ := fun acc t =>
    scanPieces (touching cq) (settled.filter (fun b => b.pieceType == t))
      (settled.filter (fun b => b.pieceType == t)) acc with hstep
  have main : ∀ (keys : List String) (acc : Finset ℕ × Finset ℕ), keys.Nodup →
      (∀ b ∈ settled, b.pieceType ∈ keys → b.id ∉ acc.2) →
      (∀ i ∈ acc.2, ∃ b ∈ settled, b.id = i ∧ b.pieceType ∉ keys) →
      (∀ i ∈ acc.1, i ∈ acc.2) →
      (∀ b ∈ settled, b.pieceType ∉ keys →
        b.id ∈ acc.2 ∧
          (b.id ∈ acc.1 ↔ BigIn (touching cq) (typeListOf settled b) b)) →
      (∀ b ∈ settled,
        (b.id ∈ (keys.foldl step acc).1 ↔ BigIn (touching cq) (typeListOf settled b) b)) ∧
        ∀ i ∈ (keys.foldl step acc).1, ∃ b ∈ settled, b.id = i := by
    intro keys
    induction keys with
    | nil =>
      intro acc _ _ hdom hsub hchar
      simp only [List.foldl_nil]
      refine ⟨?_, ?_⟩
      · intro b hb
        exact (hchar b hb (List.not_mem_nil _)).2
      · intro i hi
        obtain ⟨b, hb, hid, _⟩ := hdom i (hsub i hi)
        exact ⟨b, hb, hid⟩
    | cons t keys' ih =>
      intro acc hkn hdisj hdom hsub hchar
      have hkn' : keys'.Nodup := (List.nodup_cons.mp hkn).2
      have htk : t ∉ keys' := (List.nodup_cons.mp hkn).1
      set pcs := settled.filter (fun b => b.pieceType == t) with hpcs
      have hpcs_mem : ∀ x, x ∈ pcs ↔ x ∈ settled ∧ x.pieceType = t := by
        intro x
        rw [hpcs]
        simp [List.mem_filter]
      have hnd_t : (pcs.map (fun b => b.id)).Nodup := nodup_ids_filter _ _ hnd
      have hvac : ∀ x ∈ pcs, x.id ∉ acc.2 := by
        intro x hx
        have := (hpcs_mem x).mp hx
        exact hdisj x this.1 (this.2 ▸ List.mem_cons_self _ _)
      obtain ⟨c1, c2, c3, c4, c5, c6, c7⟩ :=
        scanPieces_post (touching cq) pcs hnd_t htsym pcs acc.1 acc.2
          (fun x hx => hx)
          (fun x hx _ _ hxv _ => absurd hxv (hvac x hx))
          hsub
          (fun b hb hbv => absurd hbv (hvac b hb))
      have hfold : (t :: keys').foldl step acc = keys'.foldl step (step acc t) := by
        rw [List.foldl_cons]
      have hstep_eq : step acc t = scanPieces (touching cq) pcs pcs (acc.1, acc.2) := by
        rw [hstep, hpcs]
      rw [hfold]
      -- the accumulated pair after processing type t
      set acc' := scanPieces (touching cq) pcs pcs (acc.1, acc.2) with hacc'
      have hstep_eq' : step acc t = acc' := hstep_eq
      rw [hstep_eq']
      -- re-establish the invariants for the remaining keys
      have hid_inj : ∀ x ∈ settled, ∀ y ∈ settled, x.id = y.id → x = y := by
        intro x hx y hy h
        exact eq_of_id_eq hnd hx hy h
      apply ih acc' hkn'
      · -- unprocessed types remain untouched
        intro b hb hbk hbv
        rcases c7 b.id hbv with h | h
        · exact hdisj b hb (List.mem_cons_of_mem t hbk) h
        · rcases mem_idsOf.mp h with ⟨x, hx, hxid⟩
          have hxs := (hpcs_mem x).mp hx
          have : x = b := hid_inj x hxs.1 b hb hxid
          subst this
          exact htk (hxs.2 ▸ hbk)
      · -- visited ids belong to bodies of processed types
        intro i hi
        rcases c7 i hi with h | h
        · obtain ⟨b, hb, hid, hbk⟩ := hdom i h
          exact ⟨b, hb, hid, fun hk => hbk (List.mem_cons_of_mem t hk)⟩
        · rcases mem_idsOf.mp h with ⟨x, hx, hxid⟩
          have hxs := (hpcs_mem x).mp hx
          exact ⟨x, hxs.1, hxid, hxs.2 ▸ htk⟩
      · exact c5
      · -- the characterisation for all processed types
        intro b hb hbk
        by_cases hbt : b.pieceType = t
        · have hbp : b ∈ pcs := (hpcs_mem b).mpr ⟨hb, hbt⟩
          have hbv : b.id ∈ acc'.2 := c3 b hbp
          refine ⟨hbv, ?_⟩
          have htl : typeListOf settled b = pcs := by
            rw [typeListOf, hpcs, hbt]
          rw [htl]
          exact c4 b hbp hbv
        · have hbk' : b.pieceType ∉ t :: keys' := by
            intro h
            rcases List.mem_cons.mp h with h | h
            · exact hbt h
            · exact hbk h
          obtain ⟨hbv, hbiff⟩ := hchar b hb hbk'
          refine ⟨c2 hbv, ?_⟩
          have hnotin : b.id ∉ idsOf pcs := by
            intro h
            rcases mem_idsOf.mp h with ⟨x, hx, hxid⟩
            have hxs := (hpcs_mem x).mp hx
            have : x = b := hid_inj x hxs.1 b hb hxid
            subst this
            exact hbt hxs.2
          rw [c6 b.id hnotin]
          exact hbiff
  have hscan : scanAll cq settled = ((typeKeys settled).foldl step (∅, ∅)).1 := by
    rw [scanAll, hstep]
  obtain ⟨h1, h2⟩ := main (typeKeys settled) (∅, ∅) (typeKeys_nodup settled)
    (fun b _ _ h => absurd h (Finset.not_mem_empty _))
    (fun i h => absurd h (Finset.not_mem_empty _))
    (fun i h => absurd h (Finset.not_mem_empty _))
    (fun b hb hk => absurd (pieceType_mem_typeKeys hb) hk)
  constructor
  · intro b hb
    rw [hscan]
    exact h1 b hb
  · intro i hi
    rw [hscan] at hi
    exact h2 i hi

/-- `checkClears` is the identity when fewer than `minClusterToClear` settled
top-level bodies exist or the marking pass collects nothing. -/
theorem checkClears_noop (cq : Body → Body → Bool) (now : ℤ) (s : GameState)
    (h : (settledTop s.bodies).length < minClusterToClear ∨
      (scanAll cq (settledTop s.bodies)).card = 0) :
    checkClears cq now s = s := by
  unfold checkClears
  dsimp only
  rcases h with h | h
  · rw [if_pos h]
  · split
    · rfl
    · rw [if_neg (by omega)]

/-- On a non-empty marking, `checkClears` removes exactly the marked ids,
wakes every survivor, adds 100 points per marked piece, and records the
action timestamp. -/
theorem checkClears_run (cq : Body → Body → Bool) (now : ℤ) (s : GameState)
    (hlen : minClusterToClear ≤ (settledTop s.bodies).length)
    (hcard : 0 < (scanAll cq (settledTop s.bodies)).card) :
    checkClears cq now s =
      { s with
        score := s.score + (scanAll cq (settledTop s.bodies)).card * 100
        bodies := (s.bodies.filter
            (fun b => b.id ∉ scanAll cq (settledTop s.bodies))).map
          (fun b => { b with isSleeping := false })
        lastActionTime := now } := by
  unfold checkClears
  dsimp only
  rw [if_neg (by omega), if_pos hcard]

/-- **C2.**  On every invocation of `checkClears`, a settled top-level piece
is marked for removal iff it lies in a maximal connected component of size at
least `minClusterToClear` within its archetype partition, where adjacency is
the exact contact query or the block proximity fallback; only listed ids are
marked, the whole marking is computed before any removal, exactly the marked
set is removed (the survivors are merely woken), and when nothing is marked —
in particular when every component is below threshold — nothing changes. -/
theorem C2_cluster_marking (cq : Body → Body → Bool)
    (hsym : ∀ x y : Body, cq x y = cq y x) (now : ℤ) (s : GameState)
    (hnd : (s.bodies.map (fun b => b.id)).Nodup) :
    (∀ b ∈ settledTop s.bodies,
      (b.id ∈ scanAll cq (settledTop s.bodies) ↔
        BigCluster cq (settledTop s.bodies) b)) ∧
      (∀ i ∈ scanAll cq (settledTop s.bodies), ∃ b ∈ settledTop s.bodies, b.id = i) ∧
      (minClusterToClear ≤ (settledTop s.bodies).length →
        0 < (scanAll cq (settledTop s.bodies)).card →
          (checkClears cq now s).bodies =
            (s.bodies.filter
                (fun b => b.id ∉ scanAll cq (settledTop s.bodies))).map
              (fun b => { b with isSleeping := false })) ∧
      ((settledTop s.bodies).length < minClusterToClear ∨
        (scanAll cq (settledTop s.bodies)).card = 0 → checkClears cq now s = s) := by
  have hnds : ((settledTop s.bodies).map (fun b => b.id)).Nodup :=
    nodup_ids_filter _ _ hnd
  obtain ⟨h1, h2⟩ := scanAll_char cq hsym (settledTop s.bodies) hnds
  refine ⟨h1, h2, ?_, checkClears_noop cq now s⟩
  intro hlen hcard
  rw [checkClears_run cq now s hlen hcard]

/-- **C2, witness.** -/
theorem C2_witness :
    (perfectWorld.bodies.map (fun b => b.id)).Nodup ∧
      sBody 1 100 650 "I" ∈ settledTop perfectWorld.bodies ∧
      ((sBody 1 100 650 "I").id ∈ scanAll noCq (settledTop perfectWorld.bodies) ↔
        BigCluster noCq (settledTop perfectWorld.bodies) (sBody 1 100 650 "I")) :=
  ⟨by decide, by decide,
    (C2_cluster_marking noCq (fun _ _ => rfl) 0 perfectWorld (by decide)).1
      (sBody 1 100 650 "I") (by decide)⟩

/-- **C10.**  A `checkClears` invocation that sees fewer than three settled
top-level pieces, or in which no same-archetype connected component reaches
size 3, changes nothing at all: the returned state is the input state (same
score, same bodies, same sleep flags, same last-action timestamp). -/
theorem C10_below_threshold_noop (cq : Body → Body → Bool)
    (hsym : ∀ x y : Body, cq x y = cq y x) (now : ℤ) (s : GameState)
    (hnd : (s.bodies.map (fun b => b.id)).Nodup) :
    ((settledTop s.bodies).length < 3 → checkClears cq now s = s) ∧
      ((∀ b ∈ settledTop s.bodies, ∀ comp : Finset ℕ,
          CompIdsSpec (touching cq) (typeListOf (settledTop s.bodies) b) b comp →
            comp.card < 3) →
        checkClears cq now s = s) := by
  have hnds : ((settledTop s.bodies).map (fun b => b.id)).Nodup :=
    nodup_ids_filter _ _ hnd
  obtain ⟨h1, h2⟩ := scanAll_char cq hsym (settledTop s.bodies) hnds
  constructor
  · intro h
    exact checkClears_noop cq now s (Or.inl h)
  · intro hsmall
    apply checkClears_noop cq now s
    right
    rw [Finset.card_eq_zero, Finset.eq_empty_iff_forall_not_mem]
    intro i hi
    obtain ⟨b, hb, rfl⟩ := h2 i hi
    obtain ⟨comp, hcs, hcard⟩ := (h1 b hb).mp hi
    exact absurd hcard (not_le.mpr (hsmall b hb comp hcs))

/-- **C10, witness.** -/
theorem C10_witness :
    ((mkState []).bodies.map (fun b => b.id)).Nodup ∧
      (settledTop (mkState []).bodies).length < 3 ∧
      checkClears noCq 0 (mkState []) = mkState [] :=
  ⟨by decide, by decide,
    (C10_below_threshold_noop noCq (fun _ _ => rfl) 0 (mkState [])
      (by decide)).1 (by decide)⟩

/-- **C5, counterexample.**  A non-empty removal after which zero settled
pieces remain (a perfect clear): the score rises by exactly 100 per removed
piece — `3 * 100` here — with no additional flat bonus, refuting the claim
that a perfect-clear bonus is awarded whenever zero settled pieces remain
after a non-empty removal.  The source's scoring line (`main.js:528`) is
`this.score += toRemove.size * 100` and nothing else. -/
theorem C5_cex :
    perfectWorld.score = 0 ∧
      (checkClears allCq 5 perfectWorld).bodies = [] ∧
      settledTop (checkClears allCq 5 perfectWorld).bodies = [] ∧
      (checkClears allCq 5 perfectWorld).score = perfectWorld.score + 3 * 100 := by
  decide

/-- **C5, amended.**  No perfect-clear bonus exists: every non-empty removal
raises the score by exactly 100 points per removed piece, whether or not zero
settled pieces remain afterwards. -/
theorem C5_amended (cq : Body → Body → Bool) (now : ℤ) (s : GameState)
    (hlen : minClusterToClear ≤ (settledTop s.bodies).length)
    (hcard : 0 < (scanAll cq (settledTop s.bodies)).card) :
    (checkClears cq now s).score =
      s.score + (scanAll cq (settledTop s.bodies)).card * 100 := by
  rw [checkClears_run cq now s hlen hcard]

/-- **C5, witness.** -/
theorem C5_witness :
    minClusterToClear ≤ (settledTop perfectWorld.bodies).length ∧
      0 < (scanAll allCq (settledTop perfectWorld.bodies)).card ∧
      (checkClears allCq 5 perfectWorld).score =
        perfectWorld.score + (scanAll allCq (settledTop perfectWorld.bodies)).card * 100 :=
  ⟨by decide, by decide, C5_amended allCq 5 perfectWorld (by decide) (by decide)⟩

/-- **C7.**  When the pile was moving on the previous tick (`wasMoving`) and
no settled body now moves faster than the still threshold, the tick fires the
moving→still edge: `checkClears` is re-run (and only the timestamp/flag
bookkeeping happens besides), the flag drops to `false`, and a tick whose
incoming flag is `false` never fires the edge again — so the re-trigger
happens exactly once per transition.  Conversely a tick that sees a moving
settled body records `wasMoving = true` without firing. -/
theorem C7_edge_retrigger (cq : Body → Body → Bool) (now : ℤ) (sp : SpawnArgs)
    (s : GameState)
    (hp : s.isPaused = false) (hg : s.isGameOver = false) (ha : s.activeId = none)
    (hwas : s.wasMoving = true) (hstill : movingSettledCount s.bodies = 0) :
    (checkSettleEv cq now sp s).2 = true ∧
      (checkSettleEv cq now sp s).1 =
        { checkClears cq now s with lastActionTime := now, wasMoving := false } ∧
      (∀ (now' : ℤ) (sp' : SpawnArgs) (t : GameState), t.isPaused = false →
        t.isGameOver = false → t.wasMoving = false →
          (checkSettleEv cq now' sp' t).2 = false) ∧
      ∀ r : GameState, r.isPaused = false → r.isGameOver = false → r.activeId = none →
        0 < movingSettledCount r.bodies →
          (checkSettleEv cq now sp r).1.wasMoving = true ∧
            (checkSettleEv cq now sp r).2 = false := by
  have hev : checkSettleEv cq now sp s =
      ({ checkClears cq now s with lastActionTime := now, wasMoving := false }, true) := by
    unfold checkSettleEv
    rw [hp, hg]
    simp only [Bool.or_self, Bool.false_eq_true, if_false]
    rw [settlePhase_none cq now s ha]
    unfold pilePhase
    simp [hstill, hwas, checkClears_activeId, ha]
  refine ⟨by rw [hev], by rw [hev], ?_, ?_⟩
  · intro now' sp' t htp htg htw
    unfold checkSettleEv
    rw [htp, htg]
    simp only [Bool.or_self, Bool.false_eq_true, if_false]
    unfold pilePhase
    simp [settlePhase_wasMoving, htw]
  · intro r hrp hrg hra hmov
    unfold checkSettleEv
    rw [hrp, hrg]
    simp only [Bool.or_self, Bool.false_eq_true, if_false]
    rw [settlePhase_none cq now r hra]
    unfold pilePhase
    simp [hmov]

/-- **C7, witness.** -/
theorem C7_witness :
    stillDemo.isPaused = false ∧ stillDemo.isGameOver = false ∧
      stillDemo.activeId = none ∧ stillDemo.wasMoving = true ∧
      movingSettledCount stillDemo.bodies = 0 ∧
      (checkSettleEv noCq 0 demoSpawn stillDemo).2 = true :=
  ⟨rfl, rfl, rfl, rfl, rfl,
    (C7_edge_retrigger noCq 0 demoSpawn stillDemo rfl rfl rfl rfl rfl).1⟩

/-- What a successful id lookup yields. -/
theorem findBody_mem {bodies : List Body} {i : ℕ} {a : Body}
    (h : findBody bodies i = some a) : a ∈ bodies ∧ a.id = i := by
  unfold findBody at h
  refine ⟨List.mem_of_find?_eq_some h, ?_⟩
  have := List.find?_some h
  simpa using this

/-- Members of an updated body list. -/
theorem mem_updateBody {bodies : List Body} {i : ℕ} {f : Body → Body} {b' : Body}
    (h : b' ∈ updateBody bodies i f) :
    ∃ b ∈ bodies, b' = if b.id = i then f b else b := by
  unfold updateBody at h
  rcases List.mem_map.mp h with ⟨b, hb, hbe⟩
  exact ⟨b, hb, hbe.symm⟩

/-- Updating keeps the id list when the mutation keeps the id. -/
theorem updateBody_ids (bodies : List Body) (i : ℕ) (f : Body → Body)
    (hf : ∀ b, b.id = i → (f b).id = b.id) :
    (updateBody bodies i f).map (fun b => b.id) = bodies.map (fun b => b.id) := by
  unfold updateBody
  rw [List.map_map]
  apply List.map_congr_left
  intro b _
  dsimp only [Function.comp]
  split
  · rename_i hbi
    exact hf b hbi
  · rfl

/-- The input transform keeps id and label. -/
theorem applyInputToBody_id_label (keys : List String) (tp : Bool) (a : Body) :
    (applyInputToBody keys tp a).id = a.id ∧
      (applyInputToBody keys tp a).label = a.label := by
  unfold applyInputToBody
  dsimp only
  constructor <;>
    simp only [apply_ite (fun b : Body => b.id), apply_ite (fun b : Body => b.label),
      ite_self]

/-- The touch transform keeps id and label. -/
theorem applyTouchToBody_id_label (dx dy : ℚ) (a : Body) :
    (applyTouchToBody dx dy a).id = a.id ∧
      (applyTouchToBody dx dy a).label = a.label := by
  unfold applyTouchToBody
  dsimp only
  constructor <;>
    simp only [apply_ite (fun b : Body => b.id), apply_ite (fun b : Body => b.label),
      ite_self]

/-- The tracking refresh keeps id and label. -/
theorem refreshTracking_id_label (now : ℤ) (a : Body) :
    (refreshTracking now a).id = a.id ∧ (refreshTracking now a).label = a.label := by
  unfold refreshTracking
  constructor <;> split <;> rfl

/-- `goodActive` only inspects bodies, the active reference and the game-over
flag. -/
theorem goodActive_congr {s t : GameState} (hb : t.bodies = s.bodies)
    (ha : t.activeId = s.activeId) (hg : t.isGameOver = s.isGameOver)
    (h : goodActive s) : goodActive t := by
  unfold goodActive at h ⊢
  rw [hb, ha, hg]
  exact h

/-- `Inv` only inspects bodies, the active reference and the game-over flag. -/
theorem inv_congr {s t : GameState} (hb : t.bodies = s.bodies)
    (ha : t.activeId = s.activeId) (hg : t.isGameOver = s.isGameOver)
    (h : Inv s) : Inv t := by
  obtain ⟨h1, h2⟩ := h
  refine ⟨?_, goodActive_congr hb ha hg h2⟩
  unfold nodupIds at h1 ⊢
  rw [hb]
  exact h1

/-- Every list shadows itself. -/
theorem shadow_refl (X : List Body) : Shadow X X := by
  intro b' hb'
  exact Or.inl ⟨b', hb', rfl, fun h => h⟩

/-- An update whose mutation keeps the id and never downgrades `settled`
yields a shadow. -/
theorem shadow_updateBody (X : List Body) (i : ℕ) (f : Body → Body)
    (hf : ∀ b ∈ X, b.id = i → (f b).id = b.id ∧ (b.label = "settled" → (f b).label = "settled")) :
    Shadow X (updateBody X i f) := by
  intro b' hb'
  obtain ⟨b, hb, rfl⟩ := mem_updateBody hb'
  split
  · rename_i hbi
    obtain ⟨hid, hlab⟩ := hf b hb hbi
    exact Or.inl ⟨b, hb, hid.symm, hlab⟩
  · exact Or.inl ⟨b, hb, rfl, fun h => h⟩

/-- Removing and waking yields a shadow. -/
theorem shadow_filter_map (X : List Body) (p : Body → Bool) :
    Shadow X ((X.filter p).map (fun b => { b with isSleeping := false })) := by
  intro b' hb'
  rcases List.mem_map.mp hb' with ⟨b, hb, rfl⟩
  exact Or.inl ⟨b, List.mem_of_mem_filter hb, rfl, fun h => h⟩

/-- Appending a body with a fresh id preserves shadowing. -/
theorem shadow_append (X Y : List Body) (n : Body) (hY : Shadow X Y)
    (hfresh : ∀ b ∈ X, b.id ≠ n.id) : Shadow X (Y ++ [n]) := by
  intro b' hb'
  rcases List.mem_append.mp hb' with hb' | hb'
  · exact hY b' hb'
  · rw [List.mem_singleton.mp hb']
    exact Or.inr hfresh

/-- Shadowing composes when the later stage adds no id that the first list
already had. -/
theorem shadow_trans {X Y Z : List Body} (hXY : Shadow X Y) (hYZ : Shadow Y Z)
    (hids : ∀ z ∈ Z, (∀ y ∈ Y, y.id ≠ z.id) → ∀ b ∈ X, b.id ≠ z.id) :
    Shadow X Z := by
  intro z hz
  rcases hYZ z hz with ⟨y, hy, hidy, himpy⟩ | hfree
  · rcases hXY y hy with ⟨b, hb, hidb, himpb⟩ | hfree'
    · exact Or.inl ⟨b, hb, hidb.trans hidy, fun h => himpy (himpb h)⟩
    · exact Or.inr fun b hb => (hidy ▸ hfree' b hb)
  · exact Or.inr (hids z hz hfree)

/-- `checkClears` either changes nothing or removes the marked set. -/
theorem checkClears_cases (cq : Body → Body → Bool) (now : ℤ) (s : GameState) :
    checkClears cq now s = s ∨
      checkClears cq now s =
        { s with
          score := s.score + (scanAll cq (settledTop s.bodies)).card * 100
          bodies := (s.bodies.filter
              (fun b => b.id ∉ scanAll cq (settledTop s.bodies))).map
            (fun b => { b with isSleeping := false })
          lastActionTime := now } := by
  by_cases h1 : (settledTop s.bodies).length < minClusterToClear
  · exact Or.inl (checkClears_noop cq now s (Or.inl h1))
  · by_cases h2 : (scanAll cq (settledTop s.bodies)).card = 0
    · exact Or.inl (checkClears_noop cq now s (Or.inr h2))
    · exact Or.inr (checkClears_run cq now s (not_lt.mp h1) (Nat.pos_of_ne_zero h2))

/-- Waking and filtering only lose ids. -/
theorem checkClears_ids_sub (cq : Body → Body → Bool) (now : ℤ) (s : GameState) :
    ∀ j ∈ (checkClears cq now s).bodies.map (fun b => b.id),
      j ∈ s.bodies.map (fun b => b.id) := by
  rcases checkClears_cases cq now s with he | he <;> rw [he] <;> intro j hj
  · exact hj
  · simp only [List.map_map, List.mem_map, Function.comp] at hj
    rcases hj with ⟨b, hb, rfl⟩
    exact List.mem_map.mpr ⟨b, List.mem_of_mem_filter hb, rfl⟩

/-- `Inv` survives `triggerGameOver` when no piece is referenced. -/
theorem inv_triggerGameOver (s : GameState) (h : Inv s) (ha : s.activeId = none) :
    Inv (triggerGameOver s) := by
  unfold triggerGameOver
  split
  · exact h
  · have h2 := h.2
    unfold goodActive at h2
    rw [ha] at h2
    exact ⟨h.1, h2⟩

/-- `Inv` survives a spawn with a fresh id. -/
theorem inv_spawnPiece (now : ℤ) (sp : SpawnArgs) (s : GameState)
    (hfresh : sp.pid ∉ s.bodies.map (fun b => b.id)) (h : Inv s) :
    Inv (spawnPiece now sp s) := by
  unfold spawnPiece
  split
  · exact h
  · rename_i hguard
    rw [Bool.or_eq_true, not_or] at hguard
    have hover : s.isGameOver = false := by
      cases hov : s.isGameOver
      · rfl
      · exact absurd (by rw [hov]) hguard.1
    have hact : s.activeId = none := by
      cases hac : s.activeId
      · rfl
      · exact absurd (by rw [hac]; rfl) hguard.2
    split
    · exact inv_triggerGameOver s h hact
    · have h2 := h.2
      unfold goodActive at h2
      rw [hact] at h2
      constructor
      · unfold nodupIds
        dsimp only
        rw [List.map_append]
        rw [List.nodup_append]
        refine ⟨h.1, by simp, ?_⟩
        intro j hj hj'
        simp only [List.map_cons, List.map_nil, List.mem_singleton] at hj'
        subst hj'
        exact hfresh hj
      · unfold goodActive
        dsimp only
        refine ⟨hover, ?_⟩
        intro b hb hlab
        rcases List.mem_append.mp hb with hb | hb
        · exact absurd hlab (h2 b hb)
        · rw [List.mem_singleton.mp hb]
          rfl

/-- `Inv` survives `checkClears`. -/
theorem inv_checkClears (cq : Body → Body → Bool) (now : ℤ) (s : GameState)
    (h : Inv s) : Inv (checkClears cq now s) := by
  rcases checkClears_cases cq now s with he | he
  · rw [he]; exact h
  · rw [he]
    have hids : ((s.bodies.filter
        (fun b => b.id ∉ scanAll cq (settledTop s.bodies))).map
          (fun b => { b with isSleeping := false })).map (fun b => b.id) =
        (s.bodies.filter
          (fun b => b.id ∉ scanAll cq (settledTop s.bodies))).map (fun b => b.id) := by
      rw [List.map_map]
      rfl
    constructor
    · unfold nodupIds
      dsimp only
      rw [hids]
      exact nodup_ids_filter _ _ h.1
    · have h2 := h.2
      unfold goodActive at h2 ⊢
      dsimp only
      cases hA : s.activeId with
      | none =>
        rw [hA] at h2
        intro b' hb'
        rcases List.mem_map.mp hb' with ⟨b, hb, rfl⟩
        exact h2 b (List.mem_of_mem_filter hb)
      | some i =>
        rw [hA] at h2
        refine ⟨h2.1, ?_⟩
        intro b' hb' hlab
        rcases List.mem_map.mp hb' with ⟨b, hb, rfl⟩
        exact h2.2 b (List.mem_of_mem_filter hb) hlab

/-- An in-place mutation of the referenced active body that keeps id and
label keeps `Inv`. -/
theorem inv_update_const (s : GameState) (i : ℕ) (a g : Body) (h : Inv s)
    (hA : s.activeId = some i) (hId : a.id = i)
    (hgid : g.id = a.id) (_hglab : g.label = a.label) :
    Inv { s with bodies := updateBody s.bodies i (fun _ => g) } := by
  have h2 := h.2
  unfold goodActive at h2
  rw [hA] at h2
  constructor
  · unfold nodupIds
    dsimp only
    rw [updateBody_ids s.bodies i _ (fun b hb => by rw [hgid, hId, hb])]
    exact h.1
  · unfold goodActive
    dsimp only
    rw [hA]
    refine ⟨h2.1, ?_⟩
    intro b' hb' hlab
    obtain ⟨b, hb, rfl⟩ := mem_updateBody hb'
    by_cases hbi : b.id = i
    · rw [if_pos hbi]
      rw [hgid, hId]
    · rw [if_neg hbi] at hlab ⊢
      exact h2.2 b hb hlab

/-- The settle phase only loses ids. -/
theorem settlePhase_ids_sub (cq : Body → Body → Bool) (now : ℤ) (s : GameState) :
    ∀ j ∈ (settlePhase cq now s).bodies.map (fun b => b.id),
      j ∈ s.bodies.map (fun b => b.id) := by
  unfold settlePhase
  cases hA : s.activeId with
  | none => intro j hj; exact hj
  | some i =>
    dsimp only
    cases hF : findBody s.bodies i with
    | none => intro j hj; exact hj
    | some a =>
      obtain ⟨haMem, haId⟩ := findBody_mem hF
      have hid1 : ∀ (bs : List Body) (f : Body → Body), (∀ b, b.id = i → (f b).id = b.id) →
          (updateBody bs i f).map (fun b => b.id) = bs.map (fun b => b.id) :=
        fun bs f hf => updateBody_ids bs i f hf
      dsimp only
      split
      · intro j hj
        have hj' := checkClears_ids_sub cq now _ j hj
        dsimp only at hj'
        rw [hid1 _ (fun b => { b with label := "settled" }) (fun b _ => rfl),
          hid1 _ _ (fun b hb => by rw [(refreshTracking_id_label now a).1, haId, hb])] at hj'
        exact hj'
      · intro j hj
        dsimp only at hj
        rw [hid1 _ _ (fun b hb => by
          rw [(refreshTracking_id_label now a).1, haId, hb])] at hj
        exact hj

/-- `Inv` survives the settle phase. -/
theorem inv_settlePhase (cq : Body → Body → Bool) (now : ℤ) (s : GameState)
    (h : Inv s) : Inv (settlePhase cq now s) := by
  unfold settlePhase
  cases hA : s.activeId with
  | none => exact h
  | some i =>
    dsimp only
    cases hF : findBody s.bodies i with
    | none => exact h
    | some a =>
      obtain ⟨haMem, haId⟩ := findBody_mem hF
      have h2 := h.2
      unfold goodActive at h2
      rw [hA] at h2
      dsimp only
      split
      · apply inv_checkClears
        set s1 : GameState :=
          { s with
            isTouchingPile := (obstaclesOf s.bodies).any (fun o => cq a o)
            bodies := updateBody s.bodies i (fun _ => refreshTracking now a) } with hs1
        have hInv1 : Inv s1 := by
          rw [hs1]
          refine inv_congr ?_ ?_ ?_
            (inv_update_const s i a (refreshTracking now a) h hA haId
              (refreshTracking_id_label now a).1 (refreshTracking_id_label now a).2)
          · rfl
          · rfl
          · rfl
        constructor
        · unfold nodupIds
          dsimp only
          rw [updateBody_ids _ i (fun b => { b with label := "settled" }) (fun b _ => rfl)]
          exact hInv1.1
        · unfold goodActive
          dsimp only
          intro b' hb'
          obtain ⟨b, hb, rfl⟩ := mem_updateBody hb'
          split
          · intro hcon
            dsimp only at hcon
            exact absurd hcon (by decide)
          · rename_i hbi
            intro hlab
            have hb1 := hInv1.2
            unfold goodActive at hb1
            have : s1.activeId = some i := by rw [hs1]; exact hA
            rw [this] at hb1
            exact absurd (hb1.2 b hb hlab) hbi
      · refine inv_congr ?_ ?_ ?_
          (inv_update_const s i a (refreshTracking now a) h hA haId
            (refreshTracking_id_label now a).1 (refreshTracking_id_label now a).2)
        · rfl
        · exact hA.symm
        · rfl

/-- `togglePause` only touches the pause and runner flags. -/
theorem togglePause_same (s : GameState) :
    (togglePause s).bodies = s.bodies ∧ (togglePause s).activeId = s.activeId ∧
      (togglePause s).isGameOver = s.isGameOver := by
  unfold togglePause
  dsimp only
  split <;> exact ⟨rfl, rfl, rfl⟩

/-- `Inv` survives the pile phase. -/
theorem inv_pilePhase (cq : Body → Body → Bool) (now : ℤ) (sp : SpawnArgs)
    (s : GameState) (hfresh : sp.pid ∉ s.bodies.map (fun b => b.id)) (h : Inv s) :
    Inv (pilePhase cq now sp s).1 := by
  unfold pilePhase
  dsimp only
  set s1 := if s.wasMoving && !decide (0 < movingSettledCount s.bodies) then
      { checkClears cq now s with lastActionTime := now } else s with hs1
  have hInv1 : Inv s1 := by
    rw [hs1]
    split
    · refine inv_congr ?_ ?_ ?_ (inv_checkClears cq now s h) <;> rfl
    · exact h
  have hsub1 : ∀ j ∈ s1.bodies.map (fun b => b.id), j ∈ s.bodies.map (fun b => b.id) := by
    rw [hs1]
    split
    · intro j hj
      exact checkClears_ids_sub cq now s j hj
    · intro j hj
      exact hj
  split
  · apply inv_spawnPiece
    · intro hmem
      exact hfresh (hsub1 _ hmem)
    · refine inv_congr ?_ ?_ ?_ hInv1 <;> rfl
  · refine inv_congr ?_ ?_ ?_ hInv1 <;> rfl

/-- `Inv` survives a full tick. -/
theorem inv_checkSettle (cq : Body → Body → Bool) (now : ℤ) (sp : SpawnArgs)
    (s : GameState) (hfresh : sp.pid ∉ s.bodies.map (fun b => b.id)) (h : Inv s) :
    Inv (checkSettle cq now sp s) := by
  unfold checkSettle checkSettleEv
  split
  · exact h
  · apply inv_pilePhase
    · intro hmem
      exact hfresh (settlePhase_ids_sub cq now s _ hmem)
    · exact inv_settlePhase cq now s h

/-- `Inv` survives player input. -/
theorem inv_handleInput (keys : List String) (s : GameState) (h : Inv s) :
    Inv (handleInput keys s) := by
  unfold handleInput
  cases hA : s.activeId with
  | none => exact h
  | some i =>
    dsimp only
    split
    · exact h
    · cases hF : findBody s.bodies i with
      | none => exact h
      | some a =>
        obtain ⟨haMem, haId⟩ := findBody_mem hF
        refine inv_congr ?_ ?_ ?_
          (inv_update_const s i a (applyInputToBody keys s.isTouchingPile a) h hA haId
            (applyInputToBody_id_label keys s.isTouchingPile a).1
            (applyInputToBody_id_label keys s.isTouchingPile a).2)
        · rfl
        · exact hA.symm
        · rfl

/-- `Inv` survives a touch drag. -/
theorem inv_onTouchMove (dx dy : ℚ) (s : GameState) (h : Inv s) :
    Inv (onTouchMove dx dy s) := by
  unfold onTouchMove
  cases hA : s.activeId with
  | none => exact h
  | some i =>
    dsimp only
    split
    · exact h
    · cases hF : findBody s.bodies i with
      | none => exact h
      | some a =>
        obtain ⟨haMem, haId⟩ := findBody_mem hF
        refine inv_congr ?_ ?_ ?_
          (inv_update_const s i a (applyTouchToBody dx dy a) h hA haId
            (applyTouchToBody_id_label dx dy a).1
            (applyTouchToBody_id_label dx dy a).2)
        · rfl
        · exact hA.symm
        · rfl

/-- `Inv` survives a pause toggle from any source. -/
theorem inv_togglePause (s : GameState) (h : Inv s) : Inv (togglePause s) := by
  obtain ⟨h1, h2, h3⟩ := togglePause_same s
  exact inv_congr h1 h2 h3 h

/-- `Inv` survives the Escape handler. -/
theorem inv_onKeydownEscape (s : GameState) (h : Inv s) : Inv (onKeydownEscape s) := by
  unfold onKeydownEscape
  split
  · exact inv_togglePause s h
  · exact h

/-- `Inv` survives the deferred spawn timer. -/
theorem inv_firePendingSpawn (now : ℤ) (sp : SpawnArgs) (s : GameState)
    (hfresh : sp.pid ∉ s.bodies.map (fun b => b.id)) (h : Inv s) :
    Inv (firePendingSpawn now sp s) := by
  unfold firePendingSpawn
  cases s.pendingSpawnAt with
  | none => exact h
  | some t =>
    apply inv_spawnPiece
    · exact hfresh
    · refine inv_congr ?_ ?_ ?_ h <;> rfl

/-- `Inv` is preserved by every operation of the game. -/
theorem inv_step {cq : Body → Body → Bool} {s s' : GameState}
    (hstep : Step cq s s') (h : Inv s) : Inv s' := by
  cases hstep with
  | spawn now sp _ hfresh => exact inv_spawnPiece now sp s hfresh h
  | tick now sp _ hfresh => exact inv_checkSettle cq now sp s hfresh h
  | clears now _ => exact inv_checkClears cq now s h
  | input keys _ => exact inv_handleInput keys s h
  | pauseKey _ => exact inv_onKeydownEscape s h
  | pauseBtn _ => exact inv_togglePause s h
  | touch dx dy _ => exact inv_onTouchMove dx dy s h
  | deferred now sp _ hfresh => exact inv_firePendingSpawn now sp s hfresh h

/-- `Inv` holds in every reachable state. -/
theorem inv_reach {cq : Body → Body → Bool} {s₀ s : GameState} (h₀ : Inv s₀)
    (hr : Relation.ReflTransGen (Step cq) s₀ s) : Inv s := by
  induction hr with
  | refl => exact h₀
  | tail _ hstep ih => exact inv_step hstep ih

/-- `overNoActive` only reads the active reference and the game-over flag. -/
theorem ona_congr {s t : GameState} (ha : t.activeId = s.activeId)
    (hg : t.isGameOver = s.isGameOver) (h : overNoActive s) : overNoActive t := by
  unfold overNoActive at h ⊢
  rw [ha, hg]
  exact h

/-- The game-over transition clears the active reference. -/
theorem ona_triggerGameOver (s : GameState) (h : overNoActive s) :
    overNoActive (triggerGameOver s) := by
  unfold triggerGameOver
  split
  · exact h
  · intro _
    rfl

/-- `spawnPiece` keeps the game-over/no-active link. -/
theorem ona_spawnPiece (now : ℤ) (sp : SpawnArgs) (s : GameState)
    (h : overNoActive s) : overNoActive (spawnPiece now sp s) := by
  unfold spawnPiece
  split
  · exact h
  · rename_i hguard
    rw [Bool.or_eq_true, not_or] at hguard
    split
    · exact ona_triggerGameOver s h
    · intro hh
      dsimp only at hh
      exact absurd hh hguard.1

/-- `checkClears` keeps the game-over/no-active link. -/
theorem ona_checkClears (cq : Body → Body → Bool) (now : ℤ) (s : GameState)
    (h : overNoActive s) : overNoActive (checkClears cq now s) :=
  ona_congr (checkClears_activeId cq now s) (checkClears_flags cq now s).2 h

/-- The settle phase keeps the game-over/no-active link. -/
theorem ona_settlePhase (cq : Body → Body → Bool) (now : ℤ) (s : GameState)
    (h : overNoActive s) : overNoActive (settlePhase cq now s) := by
  unfold settlePhase
  cases hA : s.activeId with
  | none => exact h
  | some i =>
    dsimp only
    cases hF : findBody s.bodies i with
    | none => exact h
    | some a =>
      dsimp only
      split
      · intro _
        rw [checkClears_activeId]
      · intro hh
        dsimp only at hh
        exact Option.noConfusion ((hA.symm.trans (h hh)))

/-- The pile phase keeps the game-over/no-active link. -/
theorem ona_pilePhase (cq : Body → Body → Bool) (now : ℤ) (sp : SpawnArgs)
    (s : GameState) (h : overNoActive s) : overNoActive (pilePhase cq now sp s).1 := by
  unfold pilePhase
  dsimp only
  set s1 := if s.wasMoving && !decide (0 < movingSettledCount s.bodies) then
      { checkClears cq now s with lastActionTime := now } else s with hs1
  have h1 : overNoActive s1 := by
    rw [hs1]
    split
    · exact ona_congr (checkClears_activeId cq now s) (checkClears_flags cq now s).2 h
    · exact h
  split
  · exact ona_spawnPiece now sp _ (ona_congr rfl rfl h1)
  · exact ona_congr rfl rfl h1

/-- A full tick keeps the game-over/no-active link. -/
theorem ona_checkSettle (cq : Body → Body → Bool) (now : ℤ) (sp : SpawnArgs)
    (s : GameState) (h : overNoActive s) : overNoActive (checkSettle cq now sp s) := by
  unfold checkSettle checkSettleEv
  split
  · exact h
  · exact ona_pilePhase cq now sp _ (ona_settlePhase cq now s h)

/-- Input handling keeps the game-over/no-active link. -/
theorem ona_handleInput (keys : List String) (s : GameState) (h : overNoActive s) :
    overNoActive (handleInput keys s) := by
  unfold handleInput
  cases hA : s.activeId with
  | none => exact h
  | some i =>
    dsimp only
    split
    · exact h
    · cases hF : findBody s.bodies i with
      | none => exact h
      | some a =>
        refine ona_congr ?_ ?_ h
        · exact hA.symm
        · rfl

/-- A touch drag keeps the game-over/no-active link. -/
theorem ona_onTouchMove (dx dy : ℚ) (s : GameState) (h : overNoActive s) :
    overNoActive (onTouchMove dx dy s) := by
  unfold onTouchMove
  cases hA : s.activeId with
  | none => exact h
  | some i =>
    dsimp only
    split
    · exact h
    · cases hF : findBody s.bodies i with
      | none => exact h
      | some a =>
        refine ona_congr ?_ ?_ h
        · exact hA.symm
        · rfl

/-- Pause toggling keeps the game-over/no-active link. -/
theorem ona_togglePause (s : GameState) (h : overNoActive s) :
    overNoActive (togglePause s) :=
  ona_congr (togglePause_same s).2.1 (togglePause_same s).2.2 h

/-- The Escape handler keeps the game-over/no-active link. -/
theorem ona_onKeydownEscape (s : GameState) (h : overNoActive s) :
    overNoActive (onKeydownEscape s) := by
  unfold onKeydownEscape
  split
  · exact ona_togglePause s h
  · exact h

/-- The deferred spawn keeps the game-over/no-active link. -/
theorem ona_firePendingSpawn (now : ℤ) (sp : SpawnArgs) (s : GameState)
    (h : overNoActive s) : overNoActive (firePendingSpawn now sp s) := by
  unfold firePendingSpawn
  cases s.pendingSpawnAt with
  | none => exact h
  | some t => exact ona_spawnPiece now sp _ (ona_congr rfl rfl h)

/-- Every operation keeps the game-over/no-active link. -/
theorem ona_step {cq : Body → Body → Bool} {s s' : GameState}
    (hstep : Step cq s s') (h : overNoActive s) : overNoActive s' := by
  cases hstep with
  | spawn now sp _ _ => exact ona_spawnPiece now sp s h
  | tick now sp _ _ => exact ona_checkSettle cq now sp s h
  | clears now _ => exact ona_checkClears cq now s h
  | input keys _ => exact ona_handleInput keys s h
  | pauseKey _ => exact ona_onKeydownEscape s h
  | pauseBtn _ => exact ona_togglePause s h
  | touch dx dy _ => exact ona_onTouchMove dx dy s h
  | deferred now sp _ _ => exact ona_firePendingSpawn now sp s h

/-- The game-over/no-active link holds in every reachable state. -/
theorem ona_reach {cq : Body → Body → Bool} {s₀ s : GameState}
    (h₀ : overNoActive s₀) (hr : Relation.ReflTransGen (Step cq) s₀ s) :
    overNoActive s := by
  induction hr with
  | refl => exact h₀
  | tail _ hstep ih => exact ona_step hstep ih

/-- An id-preserving update introduces no new ids. -/
theorem ids_updateBody_mem (bodies : List Body) (i : ℕ) (f : Body → Body)
    (hf : ∀ b, b.id = i → (f b).id = b.id) :
    ∀ z ∈ updateBody bodies i f, ∃ y ∈ bodies, y.id = z.id := by
  intro z hz
  obtain ⟨b, hb, rfl⟩ := mem_updateBody hz
  by_cases hbi : b.id = i
  · rw [if_pos hbi]
    exact ⟨b, hb, (hf b hbi).symm⟩
  · rw [if_neg hbi]
    exact ⟨b, hb, rfl⟩

/-- `spawnPiece` either keeps the body list or appends the new piece. -/
theorem spawnPiece_bodies_cases (now : ℤ) (sp : SpawnArgs) (s : GameState) :
    (spawnPiece now sp s).bodies = s.bodies ∨
      (spawnPiece now sp s).bodies = s.bodies ++ [mkActivePiece now sp] := by
  unfold spawnPiece
  split
  · exact Or.inl rfl
  · split
    · unfold triggerGameOver
      split
      · exact Or.inl rfl
      · exact Or.inl rfl
    · exact Or.inr rfl

/-- `spawnPiece` never downgrades a settled label. -/
theorem shadow_spawnPiece (now : ℤ) (sp : SpawnArgs) (s : GameState)
    (hfresh : sp.pid ∉ s.bodies.map (fun b => b.id)) :
    Shadow s.bodies (spawnPiece now sp s).bodies := by
  rcases spawnPiece_bodies_cases now sp s with hc | hc <;> rw [hc]
  · exact shadow_refl s.bodies
  · refine shadow_append _ _ _ (shadow_refl s.bodies) ?_
    intro b hb hbe
    apply hfresh
    have hbp : b.id = sp.pid := hbe
    rw [← hbp]
    exact List.mem_map.mpr ⟨b, hb, rfl⟩

/-- `checkClears` never downgrades a settled label. -/
theorem shadow_checkClears (cq : Body → Body → Bool) (now : ℤ) (s : GameState) :
    Shadow s.bodies (checkClears cq now s).bodies := by
  rcases checkClears_cases cq now s with he | he <;> rw [he]
  · exact shadow_refl s.bodies
  · exact shadow_filter_map s.bodies _

/-- The settle phase never downgrades a settled label. -/
theorem shadow_settlePhase (cq : Body → Body → Bool) (now : ℤ) (s : GameState)
    (hnd : nodupIds s) : Shadow s.bodies (settlePhase cq now s).bodies := by
  unfold settlePhase
  cases hA : s.activeId with
  | none => exact shadow_refl s.bodies
  | some i =>
    dsimp only
    cases hF : findBody s.bodies i with
    | none => exact shadow_refl s.bodies
    | some a =>
      obtain ⟨haMem, haId⟩ := findBody_mem hF
      have hsh1 : Shadow s.bodies
          (updateBody s.bodies i (fun _ => refreshTracking now a)) := by
        apply shadow_updateBody
        intro b hb hbi
        have hba : b = a := eq_of_id_eq hnd hb haMem (hbi.trans haId.symm)
        subst hba
        exact ⟨(refreshTracking_id_label now b).1,
          fun hl => by rw [(refreshTracking_id_label now b).2]; exact hl⟩
      dsimp only
      split
      · -- settle: update, relabel, then clear
        set Y1 := updateBody s.bodies i (fun _ => refreshTracking now a) with hY1
        set Y2 := updateBody Y1 i
          (fun b => { b with label := "settled" }) with hY2
        have hsh2 : Shadow Y1 Y2 := by
          rw [hY2]
          apply shadow_updateBody
          intro b _ _
          exact ⟨rfl, fun _ => rfl⟩
        have hsh12 : Shadow s.bodies Y2 := by
          refine shadow_trans hsh1 hsh2 ?_
          intro z hz hfree b _
          obtain ⟨y, hy, hyz⟩ :=
            ids_updateBody_mem Y1 i (fun b => { b with label := "settled" })
              (fun b _ => rfl) z (by rw [← hY2]; exact hz)
          exact absurd hyz (hfree y hy)
        refine shadow_trans hsh12 (shadow_checkClears cq now _) ?_
        intro z hz hfree b _
        have hzid := checkClears_ids_sub cq now _ _
          (List.mem_map.mpr ⟨z, hz, rfl⟩)
        dsimp only at hzid
        rcases List.mem_map.mp hzid with ⟨y, hy, hyz⟩
        exact absurd hyz (hfree y hy)
      · exact hsh1

/-- The pile phase, run from a state shadowing `X` with no new ids, never
downgrades an `X` label (the only id it may add is the fresh spawn id). -/
theorem shadow_pile_from (cq : Body → Body → Bool) (now : ℤ) (sp : SpawnArgs)
    (X : List Body) (t : GameState) (hsh : Shadow X t.bodies)
    (hsub : ∀ j ∈ t.bodies.map (fun b => b.id), j ∈ X.map (fun b => b.id))
    (hfresh : sp.pid ∉ X.map (fun b => b.id)) :
    Shadow X (pilePhase cq now sp t).1.bodies := by
  unfold pilePhase
  dsimp only
  set s1 := if t.wasMoving && !decide (0 < movingSettledCount t.bodies) then
      { checkClears cq now t with lastActionTime := now } else t with hs1
  have hsh1 : Shadow X s1.bodies := by
    rw [hs1]
    split
    · refine shadow_trans hsh (shadow_checkClears cq now t) ?_
      intro z hz hfree b _
      have hzid := checkClears_ids_sub cq now t _ (List.mem_map.mpr ⟨z, hz, rfl⟩)
      rcases List.mem_map.mp hzid with ⟨y, hy, hyz⟩
      exact absurd hyz (hfree y hy)
    · exact hsh
  have hsub1 : ∀ j ∈ s1.bodies.map (fun b => b.id), j ∈ X.map (fun b => b.id) := by
    rw [hs1]
    split
    · intro j hj
      exact hsub j (checkClears_ids_sub cq now t j hj)
    · exact hsub
  split
  · rcases spawnPiece_bodies_cases now sp { s1 with
      wasMoving := decide (0 < movingSettledCount t.bodies) } with hc | hc <;> rw [hc]
    · exact hsh1
    · refine shadow_append _ _ _ hsh1 ?_
      intro b hb hbe
      apply hfresh
      have hbp : b.id = sp.pid := hbe
      rw [← hbp]
      exact List.mem_map.mpr ⟨b, hb, rfl⟩
  · exact hsh1

/-- A full tick never downgrades a settled label. -/
theorem shadow_checkSettle (cq : Body → Body → Bool) (now : ℤ) (sp : SpawnArgs)
    (s : GameState) (hnd : nodupIds s)
    (hfresh : sp.pid ∉ s.bodies.map (fun b => b.id)) :
    Shadow s.bodies (checkSettle cq now sp s).bodies := by
  unfold checkSettle checkSettleEv
  split
  · exact shadow_refl s.bodies
  · exact shadow_pile_from cq now sp s.bodies (settlePhase cq now s)
      (shadow_settlePhase cq now s hnd) (settlePhase_ids_sub cq now s) hfresh

/-- Input handling never downgrades a settled label. -/
theorem shadow_handleInput (keys : List String) (s : GameState) (hnd : nodupIds s) :
    Shadow s.bodies (handleInput keys s).bodies := by
  unfold handleInput
  cases hA : s.activeId with
  | none => exact shadow_refl s.bodies
  | some i =>
    dsimp only
    split
    · exact shadow_refl s.bodies
    · cases hF : findBody s.bodies i with
      | none => exact shadow_refl s.bodies
      | some a =>
        obtain ⟨haMem, haId⟩ := findBody_mem hF
        apply shadow_updateBody
        intro b hb hbi
        have hba : b = a := eq_of_id_eq hnd hb haMem (hbi.trans haId.symm)
        subst hba
        exact ⟨(applyInputToBody_id_label keys s.isTouchingPile b).1,
          fun hl => by
            rw [(applyInputToBody_id_label keys s.isTouchingPile b).2]; exact hl⟩

/-- A touch drag never downgrades a settled label. -/
theorem shadow_onTouchMove (dx dy : ℚ) (s : GameState) (hnd : nodupIds s) :
    Shadow s.bodies (onTouchMove dx dy s).bodies := by
  unfold onTouchMove
  cases hA : s.activeId with
  | none => exact shadow_refl s.bodies
  | some i =>
    dsimp only
    split
    · exact shadow_refl s.bodies
    · cases hF : findBody s.bodies i with
      | none => exact shadow_refl s.bodies
      | some a =>
        obtain ⟨haMem, haId⟩ := findBody_mem hF
        apply shadow_updateBody
        intro b hb hbi
        have hba : b = a := eq_of_id_eq hnd hb haMem (hbi.trans haId.symm)
        subst hba
        exact ⟨(applyTouchToBody_id_label dx dy b).1,
          fun hl => by rw [(applyTouchToBody_id_label dx dy b).2]; exact hl⟩

/-- Every operation never downgrades a settled label. -/
theorem shadow_step {cq : Body → Body → Bool} {s s' : GameState}
    (hstep : Step cq s s') (h : Inv s) : Shadow s.bodies s'.bodies := by
  cases hstep with
  | spawn now sp _ hfresh => exact shadow_spawnPiece now sp s hfresh
  | tick now sp _ hfresh => exact shadow_checkSettle cq now sp s h.1 hfresh
  | clears now _ => exact shadow_checkClears cq now s
  | input keys _ => exact shadow_handleInput keys s h.1
  | pauseKey _ =>
    have := (togglePause_same s).1
    unfold onKeydownEscape
    split
    · rw [this]
      exact shadow_refl s.bodies
    · exact shadow_refl s.bodies
  | pauseBtn _ =>
    have := (togglePause_same s).1
    unfold onMobilePause
    rw [this]
    exact shadow_refl s.bodies
  | touch dx dy _ => exact shadow_onTouchMove dx dy s h.1
  | deferred now sp _ hfresh =>
    unfold firePendingSpawn
    cases s.pendingSpawnAt with
    | none => exact shadow_refl s.bodies
    | some t => exact shadow_spawnPiece now sp _ hfresh

/-- Under the invariant at most one body is in the Active state. -/
theorem countActive_le_one (s : GameState) (h : Inv s) : countActive s ≤ 1 := by
  unfold countActive
  have h2 := h.2
  unfold goodActive at h2
  cases hA : s.activeId with
  | none =>
    rw [hA] at h2
    have hnil : s.bodies.filter (fun b => b.label == "active") = [] := by
      rw [List.filter_eq_nil_iff]
      intro b hb
      simp only [beq_iff_eq]
      exact h2 b hb
    rw [hnil]
    simp
  | some i =>
    rw [hA] at h2
    have hnd : ((s.bodies.filter (fun b => b.label == "active")).map
        (fun b => b.id)).Nodup := nodup_ids_filter _ _ h.1
    have hall : ∀ x ∈ (s.bodies.filter (fun b => b.label == "active")).map
        (fun b => b.id), x = i := by
      intro x hx
      rcases List.mem_map.mp hx with ⟨b, hb, rfl⟩
      have hbm := List.mem_of_mem_filter hb
      have hbl : b.label = "active" := by
        have := List.of_mem_filter hb
        simpa using this
      exact h2.2 b hbm hbl
    have hrep := List.eq_replicate_length.mpr hall
    rw [hrep] at hnd
    have hle := (List.nodup_replicate).mp hnd
    calc (s.bodies.filter (fun b => b.label == "active")).length
        = ((s.bodies.filter (fun b => b.label == "active")).map
            (fun b => b.id)).length := (List.length_map _ _).symm
      _ ≤ 1 := hle

/-- Settled bodies are never relabeled by any operation. -/
theorem settled_persist_step {cq : Body → Body → Bool} {s s' : GameState}
    (hstep : Step cq s s') (h : Inv s) :
    ∀ b ∈ s.bodies, b.label = "settled" → ∀ b' ∈ s'.bodies, b'.id = b.id →
      b'.label = "settled" := by
  intro b hb hlab b' hb' hid
  rcases shadow_step hstep h b' hb' with ⟨c, hc, hcid, himp⟩ | hfree
  · have hcb : c = b := eq_of_id_eq h.1 hc hb (hcid.trans hid)
    subst hcb
    exact himp hlab
  · exact absurd hid.symm (hfree b hb)

/-- **C6.**  In every state reachable under the game's operations from a
state satisfying the lifecycle invariant, at most one body is in the Active
state; no operation ever relabels a settled body (so Active→Settled happens
at most once and is never reverted); and calling `spawnPiece` while an active
piece exists returns the state unchanged. -/
theorem C6_single_active (cq : Body → Body → Bool) (s₀ s : GameState)
    (h₀ : Inv s₀) (hr : Relation.ReflTransGen (Step cq) s₀ s) :
    countActive s ≤ 1 ∧
      (∀ (now : ℤ) (sp : SpawnArgs), s.activeId.isSome = true →
        spawnPiece now sp s = s) ∧
      ∀ s' : GameState, Step cq s s' → ∀ b ∈ s.bodies, b.label = "settled" →
        ∀ b' ∈ s'.bodies, b'.id = b.id → b'.label = "settled" := by
  have hInv := inv_reach h₀ hr
  refine ⟨countActive_le_one s hInv, ?_,
    fun s' hstep => settled_persist_step hstep hInv⟩
  intro now sp hsome
  unfold spawnPiece
  rw [hsome]
  simp

/-- **C6, witness.** -/
theorem C6_witness :
    Inv activeDemo ∧ countActive activeDemo ≤ 1 :=
  ⟨by decide, (C6_single_active noCq activeDemo activeDemo (by decide) .refl).1⟩

/-- **C9.**  In every state reachable from a state satisfying the
game-over/no-active link, `isGameOver = true` implies the active reference is
`none`; the game-over transition itself clears the reference while setting
the flag; and input handling with no active reference is a no-op, so no piece
remains under or returns to player control after game over. -/
theorem C9_game_over_clears_active (cq : Body → Body → Bool) (s₀ s : GameState)
    (h₀ : overNoActive s₀) (hr : Relation.ReflTransGen (Step cq) s₀ s) :
    (s.isGameOver = true → s.activeId = none) ∧
      (∀ t : GameState, t.isGameOver = false →
        (triggerGameOver t).isGameOver = true ∧ (triggerGameOver t).activeId = none) ∧
      ∀ keys : List String, s.activeId = none → handleInput keys s = s := by
  refine ⟨ona_reach h₀ hr, ?_, ?_⟩
  · intro t ht
    unfold triggerGameOver
    rw [if_neg (by simp [ht])]
    exact ⟨rfl, rfl⟩
  · intro keys hnone
    unfold handleInput
    rw [hnone]

/-- **C9, witness.** -/
theorem C9_witness :
    overNoActive overState ∧ (overState.isGameOver = true → overState.activeId = none) :=
  ⟨by decide, (C9_game_over_clears_active noCq overState overState (by decide) .refl).1⟩

end Frustris
